import Mathlib

/-!
Arena allocator of TinyInfiniTensor (`src/core/allocator.cc`)

A shallow embedding of `infini::Allocator`.

* `size_t` is a natural number below `SIZE_MAX + 1 = 2 ^ 64`; every arithmetic
  operation of the source is followed by `% SIZE_RANGE`.
* `std::map<size_t, size_t> freeBlocks` is the list of its entries in key order;
  an iterator is the index of an entry (`length` is `end()`).
* `void *ptr` is `Option Nat` (`none` is `nullptr`).
* A call ends in `Except.ok` when it returns, in `Fault.assertion` when
  `IT_ASSERT` fails, and in `Fault.erasedIterator` when it reads an iterator
  that `std::map::erase` has invalidated (undefined behaviour in C++).
* The runtime is not part of the source file: `getPtr` takes the runtime's
  `alloc` as a function and records the byte counts it asks for.
* `run` executes a list of `alloc` and `free` calls on a fresh allocator and
  keeps the live allocations beside it, so that a `free` is only issued for a
  live allocation; `calls` executes `alloc`, `free` and `getPtr` calls.
-/

namespace infini

/-- Number of values of the 64-bit type `size_t`. -/
def SIZE_RANGE : Nat := 2 ^ 64

/-- Ways in which a call does not return normally. -/
inductive Fault where
  /-- An `IT_ASSERT` failed. -/
  | assertion
  /-- An iterator was read after `erase` invalidated it. -/
  | erasedIterator
deriving DecidableEq, Repr

/-- The data members of `infini::Allocator` (the runtime handle apart). -/
structure Allocator where
  /-- Bytes currently allocated. -/
  used : Nat
  /-- High-water mark of the arena. -/
  peak : Nat
  /-- Backing buffer, `none` for `nullptr`. -/
  ptr : Option Nat
  /-- Alignment of every block. -/
  alignment : Nat
  /-- Entries `(start, length)` of the map `freeBlocks`, in key order. -/
  freeBlocks : List (Nat × Nat)
deriving DecidableEq, Repr

/-- The constructor `Allocator::Allocator`: `alignment = sizeof(uint64_t)`. -/
def Allocator.new : Allocator :=
  { used := 0, peak := 0, ptr := none, alignment := 8, freeBlocks := [] }

/-- `Allocator::getAlignedSize`:
`((size - 1) / alignment + 1) * alignment` in `size_t` arithmetic. -/
def getAlignedSize (a : Allocator) (size : Nat) : Nat :=
  ((((size + SIZE_RANGE - 1) % SIZE_RANGE) / a.alignment + 1) % SIZE_RANGE
    * a.alignment) % SIZE_RANGE

/-- `std::map::lower_bound`: the index of the first entry whose key is not less
than `k`; the length of the list when there is none (`end()`). -/
def lower_bound : List (Nat × Nat) → Nat → Nat
  | [], _ => 0
  | (k', _) :: t, k => if k' < k then lower_bound t k + 1 else 0

/-- `m[k] = v` on the ordered map: overwrite the entry with key `k`, or insert
a new entry at its place in key order. -/
def assign : List (Nat × Nat) → Nat → Nat → List (Nat × Nat)
  | [], k, v => [(k, v)]
  | (k', v') :: t, k, v =>
    if k < k' then (k, v) :: (k', v') :: t
    else if k = k' then (k, v) :: t
    else (k', v') :: assign t k v

/-- The best-fit loop of `Allocator::alloc` (lines 60-65): `i` is the index of
the entry under the iterator, `bestIt` the index held by `bestIt` (`none` for
`end()`), `bestSize` the length of the block it points to. -/
def bestFitScan (size : Nat) :
    List (Nat × Nat) → Nat → Option Nat → Nat → Option Nat × Nat
  | [], _, bestIt, bestSize => (bestIt, bestSize)
  | (_, len) :: t, i, bestIt, bestSize =>
    if size ≤ len ∧ len < bestSize then bestFitScan size t (i + 1) (some i) len
    else bestFitScan size t (i + 1) bestIt bestSize

/-- Lines 56-85 of `Allocator::alloc`: best fit among the free blocks, else
bump allocation at `peak`. `size` is already aligned. -/
def allocBestFit (a : Allocator) (size : Nat) : Nat × Allocator :=
  match (bestFitScan size a.freeBlocks 0 none (SIZE_RANGE - 1)).1 with
  | some i =>
    match a.freeBlocks[i]? with
    | some (addr, blockSize) =>
      let erased := a.freeBlocks.eraseIdx i
      let blocks :=
        if size < blockSize then
          assign erased ((addr + size) % SIZE_RANGE) (blockSize - size)
        else erased
      (addr, { a with freeBlocks := blocks, used := (a.used + size) % SIZE_RANGE })
    | none =>
      (a.peak, { a with peak := (a.peak + size) % SIZE_RANGE,
                        used := (a.used + size) % SIZE_RANGE })
  | none =>
    (a.peak, { a with peak := (a.peak + size) % SIZE_RANGE,
                      used := (a.used + size) % SIZE_RANGE })

/-- Lines 36-53 of `Allocator::alloc`: the last free block `(addr, blockSize)`
ends at `peak`; it is erased and the request is served from its start. -/
def allocTail (a : Allocator) (size addr blockSize : Nat) : Nat × Allocator :=
  let erased := a.freeBlocks.dropLast
  if size ≤ blockSize then
    let blocks :=
      if size < blockSize then
        assign erased ((addr + size) % SIZE_RANGE) (blockSize - size)
      else erased
    (addr, { a with freeBlocks := blocks, used := (a.used + size) % SIZE_RANGE })
  else
    (addr, { a with freeBlocks := erased, peak := (addr + size) % SIZE_RANGE,
                    used := (a.used + size) % SIZE_RANGE })

/-- `Allocator::alloc`. -/
def alloc (a : Allocator) (size : Nat) : Except Fault (Nat × Allocator) :=
  if a.ptr ≠ none then .error .assertion
  else
    let size := getAlignedSize a size
    match a.freeBlocks.getLast? with
    | some (addr, blockSize) =>
      if (addr + blockSize) % SIZE_RANGE = a.peak then
        .ok (allocTail a size addr blockSize)
      else .ok (allocBestFit a size)
    | none => .ok (allocBestFit a size)

/-- Lines 103-113 of `Allocator::free`, entered with a valid iterator `it`:
merge the freed range into the block before `it` when that block ends at
`addr`, otherwise store the range under the key `addr`. -/
def freeInsert (a : Allocator) (used addr size it : Nat) : Allocator :=
  if it ≠ 0 then
    match a.freeBlocks[it - 1]? with
    | some (prevStart, prevLen) =>
      if (prevStart + prevLen) % SIZE_RANGE = addr then
        { a with used := used,
                 freeBlocks := a.freeBlocks.set (it - 1)
                   (prevStart, (prevLen + size) % SIZE_RANGE) }
      else { a with used := used, freeBlocks := assign a.freeBlocks addr size }
    | none => { a with used := used, freeBlocks := assign a.freeBlocks addr size }
  else { a with used := used, freeBlocks := assign a.freeBlocks addr size }

/-- Lines 97-101 of `Allocator::free`, `it` being `lower_bound(addr)`: when the
block under `it` starts at `addr + size`, its length is added to `size` and the
entry is erased. The result is the new `size`, the map, and the iterator `it`
afterwards: `some it` while it is valid, `none` once `erase(it)` has
invalidated it. -/
def freeMergeNext (a : Allocator) (addr size it : Nat) :
    Nat × List (Nat × Nat) × Option Nat :=
  match a.freeBlocks[it]? with
  | some (nextStart, nextLen) =>
    if (addr + size) % SIZE_RANGE = nextStart then
      ((size + nextLen) % SIZE_RANGE, a.freeBlocks.eraseIdx it, none)
    else (size, a.freeBlocks, some it)
  | none => (size, a.freeBlocks, some it)

/-- `Allocator::free`. After the merge with the following block (line 100,
`freeBlocks.erase(it)`) the iterator `it` is invalid, and line 104 reads it
(`it != freeBlocks.begin()`, then `std::prev(it)`): the call has no defined
result and ends in `Fault.erasedIterator`. -/
def free (a : Allocator) (addr size : Nat) : Except Fault Allocator :=
  if a.ptr ≠ none then .error .assertion
  else
    let size := getAlignedSize a size
    let used := (a.used + SIZE_RANGE - size) % SIZE_RANGE
    let it := lower_bound a.freeBlocks addr
    let merged := freeMergeNext a addr size it
    match merged.2.2 with
    | some it => .ok (freeInsert { a with freeBlocks := merged.2.1 } used addr merged.1 it)
    | none => .error .erasedIterator

/-- A call of the public interface. -/
inductive Op where
  | alloc (size : Nat)
  | free (addr size : Nat)
deriving DecidableEq, Repr

/-- Why a run of calls stops early. -/
inductive Stop where
  /-- A call did not return. -/
  | fault (f : Fault)
  /-- A `free` that matches no live allocation: the sequence is not valid. -/
  | notLive
deriving DecidableEq, Repr

/-- A run in progress: the allocator, the live allocations
`(offset, aligned size)` and the offsets `alloc` returned, latest first. -/
structure Run where
  st : Allocator
  live : List (Nat × Nat)
  offsets : List Nat
deriving DecidableEq, Repr

/-- One call. A `free` is issued only when `(addr, aligned size)` is live. -/
def step (r : Run) : Op → Except Stop Run
  | .alloc size =>
    match alloc r.st size with
    | .ok (off, st') =>
      .ok { st := st', live := (off, getAlignedSize r.st size) :: r.live,
            offsets := off :: r.offsets }
    | .error f => .error (.fault f)
  | .free addr size =>
    if (addr, getAlignedSize r.st size) ∈ r.live then
      match free r.st addr size with
      | .ok st' =>
        .ok { r with st := st', live := r.live.erase (addr, getAlignedSize r.st size) }
      | .error f => .error (.fault f)
    else .error .notLive

/-- The calls `ops`, in order, starting from `r`. -/
def runFrom (r : Run) : List Op → Except Stop Run
  | [] => .ok r
  | op :: ops =>
    match step r op with
    | .ok r' => runFrom r' ops
    | .error e => .error e

/-- The calls `ops` on a freshly constructed allocator. -/
def run (ops : List Op) : Except Stop Run :=
  runFrom { st := Allocator.new, live := [], offsets := [] } ops


/-- What the C++ types give: `used`, `peak` and the keys and values of the map
are `size_t` values, and the entries of the `std::map` are in strictly
increasing key order. -/
def Allocator.WellTyped (a : Allocator) : Prop :=
  a.used < SIZE_RANGE ∧ a.peak < SIZE_RANGE ∧
    a.freeBlocks.Pairwise (fun x y => x.1 < y.1) ∧
    ∀ b ∈ a.freeBlocks, b.1 < SIZE_RANGE ∧ b.2 < SIZE_RANGE

/-- The class invariant of `Allocator`: what the constructor establishes and
every member function keeps, whatever its arguments. The fields hold `size_t`
values, `alignment` is the constant `sizeof(uint64_t)`, the entries of the map
are in strictly increasing key order, and every block length is a multiple of
`alignment` (lengths are only ever built from aligned sizes). -/
def Allocator.WellFormed (a : Allocator) : Prop :=
  a.alignment = 8 ∧ a.used < SIZE_RANGE ∧ a.peak < SIZE_RANGE ∧
    a.freeBlocks.Pairwise (fun x y => x.1 < y.1) ∧
    ∀ b ∈ a.freeBlocks, b.1 < SIZE_RANGE ∧ b.2 < SIZE_RANGE ∧ a.alignment ∣ b.2


instance (a : Allocator) : Decidable a.WellFormed := by
  unfold Allocator.WellFormed
  infer_instance

instance (a : Allocator) : Decidable a.WellTyped := by
  unfold Allocator.WellTyped
  infer_instance

/-- After `alloc(10)`, `alloc(20)`, `free(16, 20)`: the block `{16 : 24}` ends
at `peak`. -/
def tailState : Allocator :=
  { used := 16, peak := 40, ptr := none, alignment := 8, freeBlocks := [(16, 24)] }

/-- Three free blocks below a live allocation `[48, 64)`; two of them have the
least length. -/
def bestFitState : Allocator :=
  { used := 32, peak := 64, ptr := none, alignment := 8,
    freeBlocks := [(0, 16), (24, 8), (40, 8)] }

/-- Every address the allocator holds is a multiple of the alignment (which is
8), and the allocator is not bound. -/
def Allocator.Aligned (a : Allocator) : Prop :=
  a.alignment = 8 ∧ a.ptr = none ∧ 8 ∣ a.peak ∧
    ∀ b ∈ a.freeBlocks, 8 ∣ b.1 ∧ 8 ∣ b.2

/-- The allocator of a run is `Aligned` and so are the live offsets and the
offsets returned so far. -/
def Run.Aligned (r : Run) : Prop :=
  r.st.Aligned ∧ (∀ x ∈ r.live, 8 ∣ x.1) ∧ ∀ o ∈ r.offsets, 8 ∣ o

/-- `Allocator::getPtr`. `provide n` stands for `runtime->alloc(n)`, the
pointer the runtime hands out for a request of `n` bytes (`none` for
`nullptr`); the runtime itself is not part of this file. The result is the
returned pointer, the allocator afterwards, and the byte counts requested from
the runtime during the call. The diagnostic `printf` is left out. -/
def getPtr (provide : Nat → Option Nat) (a : Allocator) :
    Option Nat × Allocator × List Nat :=
  if a.ptr = none then
    (provide a.peak, { a with ptr := provide a.peak }, [a.peak])
  else (a.ptr, a, [])

/-- A call of the public interface, `getPtr` included. -/
inductive Call where
  | alloc (size : Nat)
  | free (addr size : Nat)
  | getPtr
deriving DecidableEq, Repr

/-- One call on the allocator; the value it returns is dropped. -/
def call (provide : Nat → Option Nat) (a : Allocator) : Call → Except Fault Allocator
  | .alloc size =>
    match alloc a size with
    | .ok (_, a') => .ok a'
    | .error f => .error f
  | .free addr size => free a addr size
  | .getPtr => .ok (getPtr provide a).2.1

/-- The calls `cs`, in order, starting from `a`; the run ends at the first call
that does not return. -/
def calls (provide : Nat → Option Nat) (a : Allocator) : List Call → Except Fault Allocator
  | [] => .ok a
  | c :: cs =>
    match call provide a c with
    | .ok a' => calls provide a' cs
    | .error f => .error f

/-- The merge that the specification prescribes for `free`, written from its
words for comparison with `free`: `next` is the free block that starts at
`offset + s`, `prev` the free block that ends at `offset`, both looked up in
the map as it is before the call; `prev` and `next` are removed and the single
entry `{mergedStart : mergedLen}` is added. -/
def mergeSpec (blocks : List (Nat × Nat)) (offset s : Nat) : List (Nat × Nat) :=
  let next := blocks.find? (fun b => b.1 = offset + s)
  let prev := blocks.find? (fun b => b.1 + b.2 = offset)
  let mergedStart := (prev.map Prod.fst).getD offset
  let mergedLen := s + (prev.map Prod.snd).getD 0 + (next.map Prod.snd).getD 0
  assign (blocks.filter (fun b => some b ≠ prev ∧ some b ≠ next)) mergedStart mergedLen

/-- The sum of the aligned sizes that the `alloc` calls of `ops` request. -/
def requested : List Op → Nat
  | [] => 0
  | .alloc size :: ops => getAlignedSize Allocator.new size + requested ops
  | .free _ _ :: ops => requested ops

/-- The run is unbound with alignment 8, and every free block and every live
allocation is a non-empty range that ends at or below `peak`. -/
def Run.Positive (r : Run) : Prop :=
  r.st.alignment = 8 ∧ r.st.ptr = none ∧
    (∀ b ∈ r.st.freeBlocks, 0 < b.2 ∧ b.1 + b.2 ≤ r.st.peak) ∧
    ∀ x ∈ r.live, 0 < x.2 ∧ x.1 + x.2 ≤ r.st.peak

/-! # Theorems -/

/-! ## The ordered map -/

theorem assign_of_forall_lt (l : List (Nat × Nat)) (k v : Nat)
    (h : ∀ b ∈ l, b.1 < k) : assign l k v = l ++ [(k, v)] := by
  induction l with
  | nil => rfl
  | cons x t ih =>
    obtain ⟨k', v'⟩ := x
    have hk : k' < k := h (k', v') (List.mem_cons_self _ _)
    have ht : ∀ b ∈ t, b.1 < k := fun b hb => h b (List.mem_cons_of_mem _ hb)
    simp only [assign, List.cons_append]
    rw [if_neg (by omega), if_neg (by omega), ih ht]

theorem dropLast_append_of_getLast? (l : List (Nat × Nat)) (x : Nat × Nat)
    (h : l.getLast? = some x) : l.dropLast ++ [x] = l :=
  List.dropLast_append_getLast? x h

theorem forall_lt_of_getLast? (l : List (Nat × Nat)) (x : Nat × Nat)
    (hs : l.Pairwise (fun x y => x.1 < y.1)) (h : l.getLast? = some x) :
    ∀ b ∈ l.dropLast, b.1 < x.1 := by
  have hl := dropLast_append_of_getLast? l x h
  rw [← hl, List.pairwise_append] at hs
  intro b hb
  exact hs.2.2 b hb x (List.mem_singleton_self x)


/-! ## Aligned sizes -/

/-- C5 (aligned size). With the constructor's alignment of 8 and a `size_t`
request `size` (0 included), `getAlignedSize size`, computed in 64-bit unsigned
arithmetic, equals `ceil(size / 8) * 8` whenever that value is below `2 ^ 64`;
it is then the least multiple of the alignment that is at least `size`. In
particular `getAlignedSize 0 = 0` and `getAlignedSize 10 = 16`. -/
theorem getAlignedSize_eq_ceil (a : Allocator) (size : Nat)
    (halign : a.alignment = 8) (hsize : size < SIZE_RANGE)
    (hceil : (size + 7) / 8 * 8 < SIZE_RANGE) :
    getAlignedSize a size = (size + 7) / 8 * 8 ∧
      a.alignment ∣ getAlignedSize a size ∧
      size ≤ getAlignedSize a size ∧
      (∀ m, a.alignment ∣ m → size ≤ m → getAlignedSize a size ≤ m) ∧
      getAlignedSize a 0 = 0 ∧ getAlignedSize a 10 = 16 := by
  have h : getAlignedSize a size = (size + 7) / 8 * 8 := by
    simp only [getAlignedSize, halign, SIZE_RANGE] at *
    omega
  refine ⟨h, ?_, ?_, ?_, ?_, ?_⟩
  · rw [h, halign]; exact Dvd.intro_left _ rfl
  · rw [h]; omega
  · intro m hm hle
    rw [h]
    rw [halign] at hm
    obtain ⟨c, rfl⟩ := hm
    omega
  · simp [getAlignedSize, halign, SIZE_RANGE]
  · simp [getAlignedSize, halign, SIZE_RANGE]

theorem getAlignedSize_eq_ceil_witness :
    Allocator.new.alignment = 8 ∧ 10 < SIZE_RANGE ∧ (10 + 7) / 8 * 8 < SIZE_RANGE ∧
      getAlignedSize Allocator.new 10 = (10 + 7) / 8 * 8 ∧
      Allocator.new.alignment ∣ getAlignedSize Allocator.new 10 ∧
      10 ≤ getAlignedSize Allocator.new 10 ∧
      (∀ m, Allocator.new.alignment ∣ m → 10 ≤ m → getAlignedSize Allocator.new 10 ≤ m) ∧
      getAlignedSize Allocator.new 0 = 0 ∧ getAlignedSize Allocator.new 10 = 16 :=
  ⟨rfl, by decide, by decide,
    getAlignedSize_eq_ceil Allocator.new 10 rfl (by decide) (by decide)⟩

/-! ## The branches of `alloc` -/

theorem bestFitScan_of_forall_lt (size : Nat) (l : List (Nat × Nat)) :
    ∀ (i : Nat) (bestIt : Option Nat) (bestSize : Nat),
      (∀ b ∈ l, b.2 < size) → bestFitScan size l i bestIt bestSize = (bestIt, bestSize) := by
  induction l with
  | nil => intro i bestIt bestSize _; rfl
  | cons x t ih =>
    intro i bestIt bestSize h
    obtain ⟨k, len⟩ := x
    have hx : len < size := h (k, len) (List.mem_cons_self _ _)
    simp only [bestFitScan]
    rw [if_neg (by omega)]
    exact ih _ _ _ (fun b hb => h b (List.mem_cons_of_mem _ hb))

theorem bestFitScan_spec (size : Nat) (l : List (Nat × Nat)) :
    ∀ (i : Nat) (bestIt : Option Nat) (bestSize : Nat),
      ((∀ b ∈ l, ¬ (size ≤ b.2 ∧ b.2 < bestSize)) ∧
        bestFitScan size l i bestIt bestSize = (bestIt, bestSize)) ∨
      ∃ j addr len, l[j]? = some (addr, len) ∧ size ≤ len ∧ len < bestSize ∧
        bestFitScan size l i bestIt bestSize = (some (i + j), len) ∧
        (∀ b ∈ l, size ≤ b.2 → len ≤ b.2) ∧
        (∀ j' b, j' < j → l[j']? = some b → size ≤ b.2 → len < b.2) := by
  induction l with
  | nil =>
    intro i bestIt bestSize
    left
    exact ⟨fun b hb => absurd hb (List.not_mem_nil b), rfl⟩
  | cons x t ih =>
    intro i bestIt bestSize
    obtain ⟨k, len0⟩ := x
    by_cases hx : size ≤ len0 ∧ len0 < bestSize
    · have hstep : bestFitScan size ((k, len0) :: t) i bestIt bestSize
          = bestFitScan size t (i + 1) (some i) len0 := by
        simp only [bestFitScan]; rw [if_pos hx]
      rcases ih (i + 1) (some i) len0 with ⟨hnone, heq⟩ | ⟨j, addr, len, hget, hle, hlt, heq, hmin, hfirst⟩
      · right
        refine ⟨0, k, len0, by simp, hx.1, hx.2, ?_, ?_, ?_⟩
        · rw [hstep, heq]; rfl
        · intro b hb hsb
          rcases List.mem_cons.1 hb with rfl | hb
          · exact le_refl _
          · have := hnone b hb
            omega
        · intro j' b hj'; omega
      · right
        refine ⟨j + 1, addr, len, by simpa using hget, hle, by omega, ?_, ?_, ?_⟩
        · rw [hstep, heq]; congr 2; omega
        · intro b hb hsb
          rcases List.mem_cons.1 hb with rfl | hb
          · exact le_of_lt hlt
          · exact hmin b hb hsb
        · intro j' b hj' hget' hsb
          cases j' with
          | zero =>
            simp only [List.getElem?_cons_zero, Option.some.injEq] at hget'
            subst hget'
            exact hlt
          | succ j'' =>
            exact hfirst j'' b (by omega) (by simpa using hget') hsb
    · have hstep : bestFitScan size ((k, len0) :: t) i bestIt bestSize
          = bestFitScan size t (i + 1) bestIt bestSize := by
        simp only [bestFitScan]; rw [if_neg hx]
      rcases ih (i + 1) bestIt bestSize with ⟨hnone, heq⟩ | ⟨j, addr, len, hget, hle, hlt, heq, hmin, hfirst⟩
      · left
        refine ⟨?_, by rw [hstep, heq]⟩
        intro b hb
        rcases List.mem_cons.1 hb with rfl | hb
        · exact hx
        · exact hnone b hb
      · right
        refine ⟨j + 1, addr, len, by simpa using hget, hle, hlt, ?_, ?_, ?_⟩
        · rw [hstep, heq]; congr 2; omega
        · intro b hb hsb
          rcases List.mem_cons.1 hb with rfl | hb
          · simp only at hsb ⊢
            omega
          · exact hmin b hb hsb
        · intro j' b hj' hget' hsb
          cases j' with
          | zero =>
            simp only [List.getElem?_cons_zero, Option.some.injEq] at hget'
            subst hget'
            simp only at hsb ⊢
            omega
          | succ j'' =>
            exact hfirst j'' b (by omega) (by simpa using hget') hsb

/-- C6 (tail reuse). On an unbound allocator whose highest free block
`(start, len)` ends at `peak`, a request whose aligned size `s` is at most `len`
returns `start`; `peak` is unchanged, `used` becomes `used + s` (in `size_t`),
the entry at `start` is removed, the remainder `(start + s, len - s)` is
inserted exactly when `s < len`, and every other free block is unchanged. -/
theorem alloc_tail_reuse (a : Allocator) (size start len : Nat)
    (hptr : a.ptr = none) (hwf : a.WellTyped)
    (hlast : a.freeBlocks.getLast? = some (start, len))
    (htail : start + len = a.peak)
    (hfit : getAlignedSize a size ≤ len) :
    a.freeBlocks = a.freeBlocks.dropLast ++ [(start, len)] ∧
    alloc a size = .ok (start,
      { a with
        used := (a.used + getAlignedSize a size) % SIZE_RANGE,
        freeBlocks :=
          if getAlignedSize a size < len then
            a.freeBlocks.dropLast ++ [(start + getAlignedSize a size, len - getAlignedSize a size)]
          else a.freeBlocks.dropLast }) := by
  obtain ⟨_, hpeak, hsorted, _⟩ := hwf
  refine ⟨(dropLast_append_of_getLast? _ _ hlast).symm, ?_⟩
  have hmod : (start + len) % SIZE_RANGE = a.peak := by
    rw [htail]; exact Nat.mod_eq_of_lt hpeak
  have hlt := forall_lt_of_getLast? _ _ hsorted hlast
  have hp : ¬ (a.ptr ≠ none) := by simp [hptr]
  simp only [alloc, if_neg hp, hlast, hmod, if_true, allocTail, if_pos hfit]
  by_cases hs : getAlignedSize a size < len
  · have hkey : (start + getAlignedSize a size) % SIZE_RANGE = start + getAlignedSize a size :=
      Nat.mod_eq_of_lt (by omega)
    rw [if_pos hs, if_pos hs, hkey, assign_of_forall_lt]
    intro b hb
    have := hlt b hb
    simp only at this ⊢
    omega
  · rw [if_neg hs, if_neg hs]

/-- C8 (tail extension). On an unbound allocator whose highest free block
`(start, len)` ends at `peak`, a request whose aligned size `s` exceeds `len`
returns `start`, removes that block without inserting anything, sets `peak` to
`start + s` (so `peak` grows by `s - len`) and `used` to `used + s`
(both in `size_t`). -/
theorem alloc_tail_extension (a : Allocator) (size start len : Nat)
    (hptr : a.ptr = none) (hwf : a.WellTyped)
    (hlast : a.freeBlocks.getLast? = some (start, len))
    (htail : start + len = a.peak)
    (hshort : len < getAlignedSize a size) :
    a.freeBlocks = a.freeBlocks.dropLast ++ [(start, len)] ∧
    alloc a size = .ok (start,
      { a with
        used := (a.used + getAlignedSize a size) % SIZE_RANGE,
        peak := (start + getAlignedSize a size) % SIZE_RANGE,
        freeBlocks := a.freeBlocks.dropLast }) ∧
    (start + getAlignedSize a size < SIZE_RANGE →
      (start + getAlignedSize a size) % SIZE_RANGE = a.peak + (getAlignedSize a size - len)) := by
  obtain ⟨_, hpeak, _, _⟩ := hwf
  refine ⟨(dropLast_append_of_getLast? _ _ hlast).symm, ?_, ?_⟩
  · have hmod : (start + len) % SIZE_RANGE = a.peak := by
      rw [htail]; exact Nat.mod_eq_of_lt hpeak
    have hp : ¬ (a.ptr ≠ none) := by simp [hptr]
    simp only [alloc, if_neg hp, hlast, hmod, if_true, allocTail,
      if_neg (Nat.not_le.2 hshort)]
  · intro h
    rw [Nat.mod_eq_of_lt h]
    omega

/-- C9 (bump fallback). On an unbound allocator where the highest free block
does not end at `peak` (or there is no free block) and every free block is
shorter than the aligned size `s`, `alloc` returns the old `peak`, sets `peak`
to `peak + s` and `used` to `used + s` (in `size_t`) and leaves `freeBlocks`
unchanged. -/
theorem alloc_bump (a : Allocator) (size : Nat)
    (hptr : a.ptr = none)
    (hnotail : ∀ b, a.freeBlocks.getLast? = some b → (b.1 + b.2) % SIZE_RANGE ≠ a.peak)
    (hnofit : ∀ b ∈ a.freeBlocks, b.2 < getAlignedSize a size) :
    alloc a size = .ok (a.peak,
      { a with
        used := (a.used + getAlignedSize a size) % SIZE_RANGE,
        peak := (a.peak + getAlignedSize a size) % SIZE_RANGE }) := by
  have hbump : allocBestFit a (getAlignedSize a size) = (a.peak,
      { a with
        used := (a.used + getAlignedSize a size) % SIZE_RANGE,
        peak := (a.peak + getAlignedSize a size) % SIZE_RANGE }) := by
    simp only [allocBestFit, bestFitScan_of_forall_lt _ _ _ _ _ hnofit]
  have hp : ¬ (a.ptr ≠ none) := by simp [hptr]
  simp only [alloc, if_neg hp]
  cases hlast : a.freeBlocks.getLast? with
  | none => simp only [hbump]
  | some b =>
    obtain ⟨addr, blockSize⟩ := b
    have := hnotail _ hlast
    simp only at this
    simp only [if_neg this, hbump]


theorem alloc_eq_allocBestFit (a : Allocator) (size : Nat)
    (hptr : a.ptr = none)
    (hnotail : ∀ b, a.freeBlocks.getLast? = some b → (b.1 + b.2) % SIZE_RANGE ≠ a.peak) :
    alloc a size = .ok (allocBestFit a (getAlignedSize a size)) := by
  have hp : ¬ (a.ptr ≠ none) := by simp [hptr]
  simp only [alloc, if_neg hp]
  cases hlast : a.freeBlocks.getLast? with
  | none => rfl
  | some b =>
    obtain ⟨addr, blockSize⟩ := b
    have := hnotail _ hlast
    simp only at this
    simp only [if_neg this]

/-- C7 (best fit). On an unbound allocator where the highest free block does
not end at `peak` and some free block is at least as long as the aligned size
`s`, `alloc` returns the start `addr` of a free block `(addr, len)` whose length
is the least among the blocks of length at least `s` and whose start is the
lowest among the blocks of that length; this entry is erased, the leftover
`(addr + s, len - s)` is stored exactly when `s < len`, `used` becomes
`used + s` (in `size_t`) and `peak` is unchanged. -/
theorem alloc_best_fit (a : Allocator) (size : Nat)
    (hptr : a.ptr = none) (hwf : a.WellFormed)
    (hnotail : ∀ b, a.freeBlocks.getLast? = some b → (b.1 + b.2) % SIZE_RANGE ≠ a.peak)
    (hfit : ∃ b ∈ a.freeBlocks, getAlignedSize a size ≤ b.2) :
    ∃ i addr len, a.freeBlocks[i]? = some (addr, len) ∧
      getAlignedSize a size ≤ len ∧
      (∀ b ∈ a.freeBlocks, getAlignedSize a size ≤ b.2 → len ≤ b.2) ∧
      (∀ b ∈ a.freeBlocks, b.2 = len → addr ≤ b.1) ∧
      alloc a size = .ok (addr,
        { a with
          used := (a.used + getAlignedSize a size) % SIZE_RANGE,
          freeBlocks :=
            if getAlignedSize a size < len then
              assign (a.freeBlocks.eraseIdx i)
                ((addr + getAlignedSize a size) % SIZE_RANGE) (len - getAlignedSize a size)
            else a.freeBlocks.eraseIdx i }) := by
  obtain ⟨halign, _, _, hsorted, hblocks⟩ := hwf
  rcases bestFitScan_spec (getAlignedSize a size) a.freeBlocks 0 none (SIZE_RANGE - 1) with
    ⟨hnone, _⟩ | ⟨j, addr, len, hget, hle, hlt, heq, hmin, hfirst⟩
  · exfalso
    obtain ⟨b, hb, hsb⟩ := hfit
    obtain ⟨_, hb2, hdvd⟩ := hblocks b hb
    rw [halign] at hdvd
    apply hnone b hb
    refine ⟨hsb, ?_⟩
    simp only [SIZE_RANGE] at hb2 ⊢
    omega
  · refine ⟨j, addr, len, hget, hle, hmin, ?_, ?_⟩
    · intro b hb hlen
      obtain ⟨j', hj'⟩ := List.mem_iff_getElem?.1 hb
      by_cases hjj : j' < j
      · have := hfirst j' b hjj hj' (by omega)
        omega
      · rcases Nat.eq_or_lt_of_le (Nat.le_of_not_lt hjj) with heqj | hltj
        · subst heqj
          rw [hget] at hj'
          simp only [Option.some.injEq] at hj'
          subst hj'
          exact le_refl _
        · obtain ⟨h1, e1⟩ := List.getElem?_eq_some.1 hget
          obtain ⟨h2, e2⟩ := List.getElem?_eq_some.1 hj'
          have := List.pairwise_iff_getElem.1 hsorted j j' h1 h2 hltj
          rw [e1, e2] at this
          exact le_of_lt this
    · rw [alloc_eq_allocBestFit a size hptr hnotail]
      simp only [allocBestFit, heq, Nat.zero_add, hget]


theorem alloc_tail_reuse_witness :
    tailState.ptr = none ∧ tailState.WellTyped ∧
      tailState.freeBlocks.getLast? = some (16, 24) ∧ 16 + 24 = tailState.peak ∧
      getAlignedSize tailState 10 ≤ 24 ∧
      alloc tailState 10 = .ok (16, { tailState with used := 32, freeBlocks := [(32, 8)] }) :=
  ⟨rfl, by decide, rfl, rfl, by decide,
    (alloc_tail_reuse tailState 10 16 24 rfl (by decide) rfl rfl (by decide)).2⟩

theorem alloc_tail_extension_witness :
    tailState.ptr = none ∧ tailState.WellTyped ∧
      tailState.freeBlocks.getLast? = some (16, 24) ∧ 16 + 24 = tailState.peak ∧
      24 < getAlignedSize tailState 30 ∧
      alloc tailState 30 =
        .ok (16, { tailState with used := 48, peak := 48, freeBlocks := [] }) :=
  ⟨rfl, by decide, rfl, rfl, by decide,
    (alloc_tail_extension tailState 30 16 24 rfl (by decide) rfl rfl (by decide)).2.1⟩

theorem alloc_bump_witness :
    bestFitState.ptr = none ∧
      (∀ b ∈ bestFitState.freeBlocks, b.2 < getAlignedSize bestFitState 20) ∧
      alloc bestFitState 20 = .ok (64, { bestFitState with used := 56, peak := 88 }) :=
  ⟨rfl, by decide,
    alloc_bump bestFitState 20 rfl
      (fun b hb => by
        have hb' : b = (40, 8) := by simpa [bestFitState] using hb.symm
        subst hb'; decide)
      (by decide)⟩

theorem alloc_best_fit_witness :
    bestFitState.ptr = none ∧ bestFitState.WellFormed ∧
      (∃ b ∈ bestFitState.freeBlocks, getAlignedSize bestFitState 8 ≤ b.2) ∧
      ∃ i addr len, bestFitState.freeBlocks[i]? = some (addr, len) ∧
        getAlignedSize bestFitState 8 ≤ len ∧
        (∀ b ∈ bestFitState.freeBlocks, getAlignedSize bestFitState 8 ≤ b.2 → len ≤ b.2) ∧
        (∀ b ∈ bestFitState.freeBlocks, b.2 = len → addr ≤ b.1) ∧
        alloc bestFitState 8 = .ok (addr,
          { bestFitState with
            used := (bestFitState.used + getAlignedSize bestFitState 8) % SIZE_RANGE,
            freeBlocks :=
              if getAlignedSize bestFitState 8 < len then
                assign (bestFitState.freeBlocks.eraseIdx i)
                  ((addr + getAlignedSize bestFitState 8) % SIZE_RANGE)
                  (len - getAlignedSize bestFitState 8)
              else bestFitState.freeBlocks.eraseIdx i }) :=
  ⟨rfl, by decide, by decide,
    alloc_best_fit bestFitState 8 rfl (by decide)
      (fun b hb => by
        have hb' : b = (40, 8) := by simpa [bestFitState] using hb.symm
        subst hb'; decide)
      (by decide)⟩

theorem alloc_bestFitState_eval : alloc bestFitState 8 =
    .ok (24, { bestFitState with used := 40, freeBlocks := [(0, 16), (40, 8)] }) := rfl

/-! ## Alignment of offsets -/

theorem freeMergeNext_cases (a : Allocator) (addr size it : Nat) :
    (∃ nextLen, a.freeBlocks[it]? = some ((addr + size) % SIZE_RANGE, nextLen) ∧
        freeMergeNext a addr size it =
          ((size + nextLen) % SIZE_RANGE, a.freeBlocks.eraseIdx it, none)) ∨
      freeMergeNext a addr size it = (size, a.freeBlocks, some it) := by
  unfold freeMergeNext
  split
  · rename_i nextStart nextLen hget
    split_ifs with h
    · left
      exact ⟨nextLen, by rw [hget, h], rfl⟩
    · right; rfl
  · right; rfl

theorem getAlignedSize_dvd (a : Allocator) (size : Nat) (halign : a.alignment = 8) :
    8 ∣ getAlignedSize a size := by
  simp only [getAlignedSize, halign, SIZE_RANGE]
  omega

theorem mem_assign (l : List (Nat × Nat)) (k v : Nat) (b : Nat × Nat)
    (h : b ∈ assign l k v) : b ∈ l ∨ b = (k, v) := by
  induction l with
  | nil =>
    right
    simpa [assign] using h
  | cons x t ih =>
    obtain ⟨k', v'⟩ := x
    simp only [assign] at h
    split_ifs at h with h1 h2
    · rcases List.mem_cons.1 h with rfl | h
      · right; rfl
      · left; exact h
    · rcases List.mem_cons.1 h with rfl | h
      · right; rfl
      · left; exact List.mem_cons_of_mem _ h
    · rcases List.mem_cons.1 h with rfl | h
      · left; exact List.mem_cons_self _ _
      · rcases ih h with h | h
        · left; exact List.mem_cons_of_mem _ h
        · right; exact h

theorem allocTail_aligned (a : Allocator) (s addr blockSize : Nat)
    (hal : a.Aligned) (hs : 8 ∣ s) (hmem : (addr, blockSize) ∈ a.freeBlocks) :
    8 ∣ (allocTail a s addr blockSize).1 ∧ (allocTail a s addr blockSize).2.Aligned := by
  obtain ⟨halign, hptr, hpeak, hblocks⟩ := hal
  obtain ⟨hk, hv⟩ := hblocks _ hmem
  simp only at hk hv
  have hdrop : ∀ b ∈ a.freeBlocks.dropLast, 8 ∣ b.1 ∧ 8 ∣ b.2 :=
    fun b hb => hblocks b (List.mem_of_mem_dropLast hb)
  have hkey : 8 ∣ (addr + s) % SIZE_RANGE := by
    simp only [SIZE_RANGE]; omega
  unfold allocTail
  split_ifs with h1 h2
  · refine ⟨hk, halign, hptr, hpeak, ?_⟩
    intro b hb
    rcases mem_assign _ _ _ _ hb with hb | rfl
    · exact hdrop b hb
    · exact ⟨hkey, by simp only; omega⟩
  · exact ⟨hk, halign, hptr, hpeak, hdrop⟩
  · exact ⟨hk, halign, hptr, hkey, hdrop⟩

theorem allocBestFit_aligned (a : Allocator) (s : Nat)
    (hal : a.Aligned) (hs : 8 ∣ s) :
    8 ∣ (allocBestFit a s).1 ∧ (allocBestFit a s).2.Aligned := by
  obtain ⟨halign, hptr, hpeak, hblocks⟩ := hal
  have hbump : 8 ∣ (a.peak + s) % SIZE_RANGE := by
    simp only [SIZE_RANGE]; omega
  unfold allocBestFit
  split
  · rename_i i _
    split
    · rename_i addr blockSize hget
      obtain ⟨hk, hv⟩ := hblocks _ (List.mem_iff_getElem?.2 ⟨i, hget⟩)
      simp only at hk hv
      have hkey : 8 ∣ (addr + s) % SIZE_RANGE := by
        simp only [SIZE_RANGE]; omega
      have herase : ∀ b ∈ a.freeBlocks.eraseIdx i, 8 ∣ b.1 ∧ 8 ∣ b.2 :=
        fun b hb => hblocks b (List.mem_of_mem_eraseIdx hb)
      refine ⟨hk, halign, hptr, hpeak, ?_⟩
      simp only
      split_ifs with h1
      · intro b hb
        rcases mem_assign _ _ _ _ hb with hb | rfl
        · exact herase b hb
        · exact ⟨hkey, by simp only; omega⟩
      · exact herase
    · exact ⟨hpeak, halign, hptr, hbump, hblocks⟩
  · exact ⟨hpeak, halign, hptr, hbump, hblocks⟩

theorem alloc_aligned (a : Allocator) (size : Nat) (hal : a.Aligned) :
    ∃ off a', alloc a size = .ok (off, a') ∧ 8 ∣ off ∧ a'.Aligned := by
  have hs := getAlignedSize_dvd a size hal.1
  have hp : ¬ (a.ptr ≠ none) := by simp [hal.2.1]
  simp only [alloc, if_neg hp]
  cases hlast : a.freeBlocks.getLast? with
  | none =>
    exact ⟨_, _, rfl, allocBestFit_aligned a _ hal hs⟩
  | some b =>
    obtain ⟨addr, blockSize⟩ := b
    simp only
    split_ifs with h
    · exact ⟨_, _, rfl, allocTail_aligned a _ addr blockSize hal hs
        (List.mem_of_getLast?_eq_some hlast)⟩
    · exact ⟨_, _, rfl, allocBestFit_aligned a _ hal hs⟩

theorem freeInsert_aligned (a : Allocator) (used addr s it : Nat)
    (hal : a.Aligned) (hs : 8 ∣ s) (haddr : 8 ∣ addr) :
    (freeInsert a used addr s it).Aligned := by
  obtain ⟨halign, hptr, hpeak, hblocks⟩ := hal
  have hassign : ∀ b ∈ assign a.freeBlocks addr s, 8 ∣ b.1 ∧ 8 ∣ b.2 := by
    intro b hb
    rcases mem_assign _ _ _ _ hb with hb | rfl
    · exact hblocks b hb
    · exact ⟨haddr, hs⟩
  unfold freeInsert
  split_ifs with h0
  · split
    · rename_i prevStart prevLen hget
      obtain ⟨hk, hv⟩ := hblocks _ (List.mem_iff_getElem?.2 ⟨_, hget⟩)
      simp only at hk hv
      split_ifs with h1
      · refine ⟨halign, hptr, hpeak, ?_⟩
        intro b hb
        rcases List.mem_or_eq_of_mem_set hb with hb | rfl
        · exact hblocks b hb
        · refine ⟨hk, ?_⟩
          simp only [SIZE_RANGE]; omega
      · exact ⟨halign, hptr, hpeak, hassign⟩
    · exact ⟨halign, hptr, hpeak, hassign⟩
  · exact ⟨halign, hptr, hpeak, hassign⟩

theorem free_aligned (a a' : Allocator) (addr size : Nat)
    (hal : a.Aligned) (haddr : 8 ∣ addr) (h : free a addr size = .ok a') :
    a'.Aligned := by
  have hs := getAlignedSize_dvd a size hal.1
  have hp : ¬ (a.ptr ≠ none) := by simp [hal.2.1]
  simp only [free, if_neg hp] at h
  rcases freeMergeNext_cases a addr (getAlignedSize a size) (lower_bound a.freeBlocks addr) with
    ⟨nextLen, _, hm⟩ | hm
  · simp only [hm] at h
    cases h
  · simp only [hm, Except.ok.injEq] at h
    rw [← h]
    exact freeInsert_aligned a _ addr _ _ hal hs haddr

theorem step_aligned (r r' : Run) (op : Op) (hr : r.Aligned) (h : step r op = .ok r') :
    r'.Aligned := by
  obtain ⟨hst, hlive, hoffs⟩ := hr
  cases op with
  | alloc size =>
    obtain ⟨off, a', halloc, hoff, ha'⟩ := alloc_aligned r.st size hst
    simp only [step, halloc] at h
    cases h
    refine ⟨ha', ?_, ?_⟩
    · intro x hx
      rcases List.mem_cons.1 hx with rfl | hx
      · exact hoff
      · exact hlive x hx
    · intro o ho
      rcases List.mem_cons.1 ho with rfl | ho
      · exact hoff
      · exact hoffs o ho
  | free addr size =>
    simp only [step] at h
    split_ifs at h with hmem
    split at h
    · rename_i st' hfree
      cases h
      exact ⟨free_aligned r.st st' addr size hst (hlive _ hmem) hfree,
        fun x hx => hlive x (List.mem_of_mem_erase hx), hoffs⟩
    · cases h

theorem runFrom_aligned (ops : List Op) :
    ∀ (r r' : Run), r.Aligned → runFrom r ops = .ok r' → r'.Aligned := by
  induction ops with
  | nil =>
    intro r r' hr h
    cases h
    exact hr
  | cons op ops ih =>
    intro r r' hr h
    simp only [runFrom] at h
    split at h
    · rename_i r1 hstep
      exact ih r1 r' (step_aligned r r1 op hr hstep) h
    · cases h

/-- In every state reached from a freshly constructed allocator by `alloc`
calls and by `free` calls that each match a live allocation and that all
returned, the alignment is 8, every offset that `alloc` returned is a multiple
of it, `peak` and the start and length of every free block are multiples of it,
and `alloc`, for every requested size, returns an offset that is a multiple of
it. -/
theorem alloc_offset_aligned (ops : List Op) (r : Run) (h : run ops = .ok r) :
    r.st.alignment = 8 ∧
      (∀ o ∈ r.offsets, r.st.alignment ∣ o) ∧
      r.st.alignment ∣ r.st.peak ∧
      (∀ b ∈ r.st.freeBlocks, r.st.alignment ∣ b.1 ∧ r.st.alignment ∣ b.2) ∧
      ∀ size, ∃ off a', alloc r.st size = .ok (off, a') ∧ r.st.alignment ∣ off := by
  have hnew : Run.Aligned { st := Allocator.new, live := [], offsets := [] } := by
    refine ⟨⟨rfl, rfl, by simp [Allocator.new], ?_⟩, ?_, ?_⟩ <;>
      intro b hb <;> simp [Allocator.new] at hb
  obtain ⟨hst, _, hoffs⟩ := runFrom_aligned ops _ r hnew h
  have halign := hst.1
  rw [halign]
  refine ⟨rfl, hoffs, hst.2.2.1, hst.2.2.2, ?_⟩
  intro size
  obtain ⟨off, a', h1, h2, _⟩ := alloc_aligned r.st size hst
  exact ⟨off, a', h1, h2⟩

theorem alloc_offset_aligned_witness :
    run [.alloc 10, .alloc 20, .free 0 10, .alloc 8, .free 16 20] =
        .ok { st := { used := 8, peak := 40, ptr := none, alignment := 8,
                      freeBlocks := [(8, 32)] },
              live := [(0, 8)], offsets := [0, 16, 0] } ∧
      ∀ size, ∃ off a',
        alloc { used := 8, peak := 40, ptr := none, alignment := 8,
                freeBlocks := [(8, 32)] } size = .ok (off, a') ∧ 8 ∣ off :=
  ⟨rfl, (alloc_offset_aligned [.alloc 10, .alloc 20, .free 0 10, .alloc 8, .free 16 20]
    _ rfl).2.2.2.2⟩

/-! ## The class invariant is kept by every call -/

theorem getAlignedSize_lt (a : Allocator) (size : Nat) :
    getAlignedSize a size < SIZE_RANGE :=
  Nat.mod_lt _ (by decide)

theorem assign_pairwise (l : List (Nat × Nat)) (k v : Nat)
    (h : l.Pairwise (fun x y => x.1 < y.1)) :
    (assign l k v).Pairwise (fun x y => x.1 < y.1) := by
  induction l with
  | nil => simp [assign]
  | cons x t ih =>
    obtain ⟨k', v'⟩ := x
    obtain ⟨hx, ht⟩ := List.pairwise_cons.1 h
    simp only [assign]
    split_ifs with h1 h2
    · refine List.pairwise_cons.2 ⟨?_, h⟩
      intro b hb
      rcases List.mem_cons.1 hb with rfl | hb
      · exact h1
      · exact lt_trans h1 (hx b hb)
    · subst h2
      exact List.pairwise_cons.2 ⟨hx, ht⟩
    · refine List.pairwise_cons.2 ⟨?_, ih ht⟩
      intro b hb
      rcases mem_assign _ _ _ _ hb with hb | rfl
      · exact hx b hb
      · simp only; omega

theorem set_pairwise (l : List (Nat × Nat)) :
    ∀ (i k v w : Nat), l.Pairwise (fun x y => x.1 < y.1) → l[i]? = some (k, v) →
      (l.set i (k, w)).Pairwise (fun x y => x.1 < y.1) := by
  induction l with
  | nil => intro i k v w _ hget; simp at hget
  | cons x t ih =>
    intro i k v w h hget
    obtain ⟨hx, ht⟩ := List.pairwise_cons.1 h
    cases i with
    | zero =>
      simp only [List.getElem?_cons_zero, Option.some.injEq] at hget
      subst hget
      exact List.pairwise_cons.2 ⟨hx, ht⟩
    | succ j =>
      simp only [List.getElem?_cons_succ] at hget
      simp only [List.set_cons_succ]
      refine List.pairwise_cons.2 ⟨?_, ih j k v w ht hget⟩
      intro b hb
      rcases List.mem_or_eq_of_mem_set hb with hb | rfl
      · exact hx b hb
      · exact hx (k, v) (List.mem_iff_getElem?.2 ⟨j, hget⟩)

theorem assign_wellFormed (a : Allocator) (l : List (Nat × Nat)) (k v used peak : Nat)
    (halign : a.alignment = 8) (hused : used < SIZE_RANGE) (hpeak : peak < SIZE_RANGE)
    (hsorted : l.Pairwise (fun x y => x.1 < y.1))
    (hblocks : ∀ b ∈ l, b.1 < SIZE_RANGE ∧ b.2 < SIZE_RANGE ∧ a.alignment ∣ b.2)
    (hk : k < SIZE_RANGE) (hv : v < SIZE_RANGE) (hdvd : 8 ∣ v) :
    Allocator.WellFormed { a with used := used, peak := peak, freeBlocks := assign l k v } := by
  refine ⟨halign, hused, hpeak, assign_pairwise l k v hsorted, ?_⟩
  intro b hb
  rcases mem_assign _ _ _ _ hb with hb | rfl
  · exact hblocks b hb
  · exact ⟨hk, hv, by simp only [halign]; exact hdvd⟩

theorem Allocator.WellFormed.wellTyped (a : Allocator) (h : a.WellFormed) : a.WellTyped :=
  ⟨h.2.1, h.2.2.1, h.2.2.2.1, fun b hb => ⟨(h.2.2.2.2 b hb).1, (h.2.2.2.2 b hb).2.1⟩⟩

/-- The constructor establishes the class invariant. -/
theorem new_wellFormed : Allocator.new.WellFormed := by decide

/-- The class invariant is kept by `alloc`, whatever the requested size. -/
theorem alloc_wellFormed (a a' : Allocator) (size off : Nat)
    (hwf : a.WellFormed) (h : alloc a size = .ok (off, a')) : a'.WellFormed := by
  obtain ⟨halign, hused, hpeak, hsorted, hblocks⟩ := hwf
  have hs := getAlignedSize_dvd a size halign
  have hmod : ∀ n, n % SIZE_RANGE < SIZE_RANGE := fun n => Nat.mod_lt _ (by decide)
  have hbest : (allocBestFit a (getAlignedSize a size)).2.WellFormed := by
    unfold allocBestFit
    split
    · rename_i i _
      split
      · rename_i addr blockSize hget
        obtain ⟨_, hv, hdvd⟩ := hblocks _ (List.mem_iff_getElem?.2 ⟨i, hget⟩)
        simp only [halign] at hv hdvd
        have hsub : (a.freeBlocks.eraseIdx i).Pairwise (fun x y => x.1 < y.1) :=
          hsorted.sublist (List.eraseIdx_sublist _ _)
        have herase : ∀ b ∈ a.freeBlocks.eraseIdx i,
            b.1 < SIZE_RANGE ∧ b.2 < SIZE_RANGE ∧ a.alignment ∣ b.2 :=
          fun b hb => hblocks b (List.mem_of_mem_eraseIdx hb)
        simp only
        split_ifs with h1
        · exact assign_wellFormed a _ _ _ _ _ halign (hmod _) hpeak hsub herase (hmod _)
            (by omega) (by omega)
        · exact ⟨halign, hmod _, hpeak, hsub, herase⟩
      · exact ⟨halign, hmod _, hmod _, hsorted, hblocks⟩
    · exact ⟨halign, hmod _, hmod _, hsorted, hblocks⟩
  have hp : ¬ (a.ptr ≠ none) := by
    intro hne
    simp only [alloc, if_pos hne] at h
    cases h
  simp only [alloc, if_neg hp] at h
  split at h
  · rename_i addr blockSize hlast
    obtain ⟨_, hv, hdvd⟩ := hblocks _ (List.mem_of_getLast?_eq_some hlast)
    simp only [halign] at hv hdvd
    have hsub : a.freeBlocks.dropLast.Pairwise (fun x y => x.1 < y.1) :=
      hsorted.sublist (List.dropLast_sublist _)
    have hdrop : ∀ b ∈ a.freeBlocks.dropLast,
        b.1 < SIZE_RANGE ∧ b.2 < SIZE_RANGE ∧ a.alignment ∣ b.2 :=
      fun b hb => hblocks b (List.mem_of_mem_dropLast hb)
    have htail : (allocTail a (getAlignedSize a size) addr blockSize).2.WellFormed := by
      unfold allocTail
      split_ifs with h1 h2
      · exact assign_wellFormed a _ _ _ _ _ halign (hmod _) hpeak hsub hdrop (hmod _)
          (by omega) (by omega)
      · exact ⟨halign, hmod _, hpeak, hsub, hdrop⟩
      · exact ⟨halign, hmod _, hmod _, hsub, hdrop⟩
    split_ifs at h with h0
    · simp only [Except.ok.injEq] at h
      have ha' : a' = (allocTail a (getAlignedSize a size) addr blockSize).2 := by rw [h]
      rw [ha']
      exact htail
    · simp only [Except.ok.injEq] at h
      have ha' : a' = (allocBestFit a (getAlignedSize a size)).2 := by rw [h]
      rw [ha']
      exact hbest
  · simp only [Except.ok.injEq] at h
    have ha' : a' = (allocBestFit a (getAlignedSize a size)).2 := by rw [h]
    rw [ha']
    exact hbest

/-- The class invariant is kept by `free`, whatever the `size_t` arguments. -/
theorem free_wellFormed (a a' : Allocator) (addr size : Nat)
    (hwf : a.WellFormed) (haddr : addr < SIZE_RANGE)
    (h : free a addr size = .ok a') : a'.WellFormed := by
  obtain ⟨halign, hused, hpeak, hsorted, hblocks⟩ := hwf
  have hs := getAlignedSize_dvd a size halign
  have hslt := getAlignedSize_lt a size
  have hmod : ∀ n, n % SIZE_RANGE < SIZE_RANGE := fun n => Nat.mod_lt _ (by decide)
  have hins : ∀ used it, used < SIZE_RANGE →
      (freeInsert a used addr (getAlignedSize a size) it).WellFormed := by
    intro used it hu
    unfold freeInsert
    split_ifs with h0
    · split
      · rename_i prevStart prevLen hget
        obtain ⟨hk, hv, hdvd⟩ := hblocks _ (List.mem_iff_getElem?.2 ⟨_, hget⟩)
        simp only [halign] at hk hv hdvd
        split_ifs with h1
        · refine ⟨halign, hu, hpeak, set_pairwise _ _ _ _ _ hsorted hget, ?_⟩
          intro b hb
          rcases List.mem_or_eq_of_mem_set hb with hb | rfl
          · exact hblocks b hb
          · refine ⟨hk, hmod _, ?_⟩
            simp only [halign, SIZE_RANGE]
            omega
        · exact assign_wellFormed a _ _ _ _ _ halign hu hpeak hsorted hblocks haddr hslt hs
      · exact assign_wellFormed a _ _ _ _ _ halign hu hpeak hsorted hblocks haddr hslt hs
    · exact assign_wellFormed a _ _ _ _ _ halign hu hpeak hsorted hblocks haddr hslt hs
  have hp : ¬ (a.ptr ≠ none) := by
    intro hne
    simp only [free, if_pos hne] at h
    cases h
  simp only [free, if_neg hp] at h
  rcases freeMergeNext_cases a addr (getAlignedSize a size) (lower_bound a.freeBlocks addr) with
    ⟨nextLen, _, hm⟩ | hm
  · simp only [hm] at h
    cases h
  · simp only [hm, Except.ok.injEq] at h
    rw [← h]
    exact hins _ _ (hmod _)

/-! ## `free` -/

/-- C10, counterexample. On a freshly constructed allocator, where nothing has
been allocated, `free(0, 8)` is not rejected: it returns, stores the block
`{0 : 8}` and wraps `used` around to `2 ^ 64 - 8`. -/
theorem free_mismatched_not_rejected :
    free Allocator.new 0 8 =
      .ok { Allocator.new with used := 18446744073709551608, freeBlocks := [(0, 8)] } :=
  rfl

theorem lower_bound_lt (l : List (Nat × Nat)) (addr : Nat) :
    ∀ (i : Nat) (b : Nat × Nat), i < lower_bound l addr → l[i]? = some b → b.1 < addr := by
  induction l with
  | nil => intro i b hi; simp [lower_bound] at hi
  | cons x t ih =>
    intro i b hi hget
    obtain ⟨k, v⟩ := x
    simp only [lower_bound] at hi
    split_ifs at hi with hk
    · cases i with
      | zero =>
        simp only [List.getElem?_cons_zero, Option.some.injEq] at hget
        subst hget
        exact hk
      | succ j =>
        simp only [List.getElem?_cons_succ] at hget
        exact ih j b (by omega) hget
    · omega

theorem lower_bound_ge (l : List (Nat × Nat)) (addr : Nat) :
    ∀ b : Nat × Nat, l[lower_bound l addr]? = some b → addr ≤ b.1 := by
  induction l with
  | nil => intro b hget; simp [lower_bound] at hget
  | cons x t ih =>
    intro b hget
    obtain ⟨k, v⟩ := x
    simp only [lower_bound] at hget
    split_ifs at hget with hk
    · simp only [List.getElem?_cons_succ] at hget
      exact ih b hget
    · simp only [List.getElem?_cons_zero, Option.some.injEq] at hget
      subst hget
      simp only
      omega

/-- C10, amended. `free` is given no record of the live allocations and checks
none: on every unbound allocator and for every `(addr, size)`, matching a live
allocation or not, when the first free block at or after `addr` does not start
at `addr + s` (`s` the aligned size), `free` returns; `peak`, `ptr` and
`alignment` are unchanged and `used` is decreased by `s` modulo `2 ^ 64`. With
`it = lower_bound(addr)`, the position before which every entry starts below
`addr` and at which the entry starts at or after `addr`: when there is an entry
just before `it` and it ends at `addr`, `s` is added to the length of that
entry (modulo `2 ^ 64`) and nothing else changes; in every other case the
range is stored by `freeBlocks[addr] = s`. -/
theorem free_unguarded (a : Allocator) (addr size : Nat)
    (hptr : a.ptr = none)
    (hnext : ∀ b, a.freeBlocks[lower_bound a.freeBlocks addr]? = some b →
      (addr + getAlignedSize a size) % SIZE_RANGE ≠ b.1) :
    ∃ a', free a addr size = .ok a' ∧
      a'.peak = a.peak ∧ a'.ptr = a.ptr ∧ a'.alignment = a.alignment ∧
      a'.used = (a.used + SIZE_RANGE - getAlignedSize a size) % SIZE_RANGE ∧
      (∀ prevStart prevLen, lower_bound a.freeBlocks addr ≠ 0 →
        a.freeBlocks[lower_bound a.freeBlocks addr - 1]? = some (prevStart, prevLen) →
        (prevStart + prevLen) % SIZE_RANGE = addr →
        a'.freeBlocks = a.freeBlocks.set (lower_bound a.freeBlocks addr - 1)
          (prevStart, (prevLen + getAlignedSize a size) % SIZE_RANGE)) ∧
      ((lower_bound a.freeBlocks addr = 0 ∨
          ∀ prevStart prevLen,
            a.freeBlocks[lower_bound a.freeBlocks addr - 1]? = some (prevStart, prevLen) →
            (prevStart + prevLen) % SIZE_RANGE ≠ addr) →
        a'.freeBlocks = assign a.freeBlocks addr (getAlignedSize a size)) ∧
      (∀ i b, i < lower_bound a.freeBlocks addr → a.freeBlocks[i]? = some b → b.1 < addr) ∧
      (∀ b, a.freeBlocks[lower_bound a.freeBlocks addr]? = some b → addr ≤ b.1) := by
  have hp : ¬ (a.ptr ≠ none) := by simp [hptr]
  have hins : ∀ used it,
      (freeInsert a used addr (getAlignedSize a size) it).peak = a.peak ∧
      (freeInsert a used addr (getAlignedSize a size) it).ptr = a.ptr ∧
      (freeInsert a used addr (getAlignedSize a size) it).alignment = a.alignment ∧
      (freeInsert a used addr (getAlignedSize a size) it).used = used ∧
      (∀ prevStart prevLen, it ≠ 0 →
        a.freeBlocks[it - 1]? = some (prevStart, prevLen) →
        (prevStart + prevLen) % SIZE_RANGE = addr →
        (freeInsert a used addr (getAlignedSize a size) it).freeBlocks =
          a.freeBlocks.set (it - 1)
            (prevStart, (prevLen + getAlignedSize a size) % SIZE_RANGE)) ∧
      ((it = 0 ∨ ∀ prevStart prevLen, a.freeBlocks[it - 1]? = some (prevStart, prevLen) →
            (prevStart + prevLen) % SIZE_RANGE ≠ addr) →
        (freeInsert a used addr (getAlignedSize a size) it).freeBlocks =
          assign a.freeBlocks addr (getAlignedSize a size)) := by
    intro used it
    unfold freeInsert
    split_ifs with h0
    · split
      · rename_i prevStart prevLen hget
        split_ifs with h1
        · refine ⟨rfl, rfl, rfl, rfl, ?_, ?_⟩
          · intro p len _ hget' _
            rw [hget] at hget'
            simp only [Option.some.injEq, Prod.mk.injEq] at hget'
            obtain ⟨rfl, rfl⟩ := hget'
            rfl
          · rintro (hz | hne)
            · exact absurd hz h0
            · exact absurd h1 (hne _ _ hget)
        · refine ⟨rfl, rfl, rfl, rfl, ?_, fun _ => rfl⟩
          intro p len _ hget' hend
          rw [hget] at hget'
          simp only [Option.some.injEq, Prod.mk.injEq] at hget'
          obtain ⟨rfl, rfl⟩ := hget'
          exact absurd hend h1
      · rename_i hnone
        refine ⟨rfl, rfl, rfl, rfl, ?_, fun _ => rfl⟩
        intro p len _ hget' _
        rw [hnone] at hget'
        cases hget'
    · refine ⟨rfl, rfl, rfl, rfl, ?_, fun _ => rfl⟩
      intro p len hne
      exact absurd hne h0
  simp only [free, if_neg hp]
  rcases freeMergeNext_cases a addr (getAlignedSize a size) (lower_bound a.freeBlocks addr) with
    ⟨nextLen, hit, _⟩ | hm
  · exact absurd rfl (hnext _ hit)
  · simp only [hm]
    obtain ⟨h1, h2, h3, h4, h5, h6⟩ := hins
      ((a.used + SIZE_RANGE - getAlignedSize a size) % SIZE_RANGE)
      (lower_bound a.freeBlocks addr)
    exact ⟨_, rfl, h1, h2, h3, h4, h5, h6, lower_bound_lt _ _, lower_bound_ge _ _⟩

theorem free_unguarded_witness :
    (∀ b, ([((8 : Nat), (8 : Nat))])[lower_bound [(8, 8)] 16]? = some b →
        (16 + getAlignedSize
          { used := 32, peak := 40, ptr := none, alignment := 8, freeBlocks := [(8, 8)] } 20)
          % SIZE_RANGE ≠ b.1) ∧
      lower_bound [(8, 8)] 16 = 1 ∧
      (∃ a', free { used := 32, peak := 40, ptr := none, alignment := 8,
                    freeBlocks := [(8, 8)] } 16 20 = .ok a' ∧
        a'.peak = 40 ∧ a'.used = 8 ∧ a'.freeBlocks = [(8, 32)]) ∧
      (∃ a', free Allocator.new 0 8 = .ok a' ∧ a'.freeBlocks = [(0, 8)]) := by
  have hnext : ∀ b, ([((8 : Nat), (8 : Nat))])[lower_bound [(8, 8)] 16]? = some b →
      (16 + getAlignedSize
        { used := 32, peak := 40, ptr := none, alignment := 8, freeBlocks := [(8, 8)] } 20)
        % SIZE_RANGE ≠ b.1 := by
    intro b hb
    simp [lower_bound] at hb
  obtain ⟨a', h, hpeak, _, _, hused, hmerge, _, _, _⟩ :=
    free_unguarded
      { used := 32, peak := 40, ptr := none, alignment := 8, freeBlocks := [(8, 8)] } 16 20
      rfl hnext
  obtain ⟨b', h', _, _, _, _, _, hstore, _, _⟩ :=
    free_unguarded Allocator.new 0 8 rfl (fun b hb => by simp [Allocator.new] at hb)
  refine ⟨hnext, rfl, ⟨a', h, hpeak, ?_, ?_⟩, ⟨b', h', ?_⟩⟩
  · rw [hused]; rfl
  · rw [hmerge 8 8 (by decide) rfl rfl]; rfl
  · rw [hstore (Or.inl rfl)]; rfl

/-! ## Coalescing with the following block -/

/-- C4, failing run. `alloc(8)`, `alloc(8)`, `free(8, 8)` leave `peak = 16`, the
live allocation `[0, 8)` and the free block `{8 : 8}`; the valid call
`free(0, 8)` (allocations freed in reverse order) erases that block and reads
the erased iterator, so the run reaches no state with the block `{0 : 16}`,
and an `alloc` issued after it has no offset to return. -/
theorem run_lifo_free_faults :
    run [.alloc 8, .alloc 8, .free 8 8] =
        .ok { st := { used := 8, peak := 16, ptr := none, alignment := 8,
                      freeBlocks := [(8, 8)] },
              live := [(0, 8)], offsets := [8, 0] } ∧
      run [.alloc 8, .alloc 8, .free 8 8, .free 0 8] = .error (.fault .erasedIterator) ∧
      run [.alloc 8, .alloc 8, .free 8 8, .free 0 8, .alloc 8] =
        .error (.fault .erasedIterator) :=
  ⟨rfl, rfl, rfl⟩

/-- C1, failing run. Four `alloc(8)` calls followed by `free(0, 8)` and
`free(16, 8)` form a valid run that leaves `peak = 32`, the live allocations
`[8, 16)` and `[24, 32)` and the free blocks `{0 : 8}` and `{16 : 8}`; the valid
call `free(8, 8)` that follows erases the block `{16 : 8}` and then reads the
erased iterator to find the block before it, so the call yields no state in
which `[0, 24)` is covered by a free block. -/
theorem run_free_between_blocks_faults :
    run [.alloc 8, .alloc 8, .alloc 8, .alloc 8, .free 0 8, .free 16 8] =
        .ok { st := { used := 16, peak := 32, ptr := none, alignment := 8,
                      freeBlocks := [(0, 8), (16, 8)] },
              live := [(24, 8), (8, 8)], offsets := [24, 16, 8, 0] } ∧
      run [.alloc 8, .alloc 8, .alloc 8, .alloc 8, .free 0 8, .free 16 8, .free 8 8] =
        .error (.fault .erasedIterator) :=
  ⟨rfl, rfl⟩

/-- C2, failing call. The free blocks `{16 : 8}` and `{32 : 8}` are
non-overlapping and non-adjacent and `[8, 16)` is a live allocation disjoint
from them; `free(8, 8)` finds the block at `8 + 8`, erases it and reads the
erased iterator instead of returning with the blocks `{8 : 16}`, `{32 : 8}`. -/
theorem free_next_adjacent_faults :
    free { used := 24, peak := 40, ptr := none, alignment := 8,
           freeBlocks := [(16, 8), (32, 8)] } 8 8 =
      .error .erasedIterator :=
  rfl

/-- C3, failing run. After `alloc(16)`, `alloc(24)`, `alloc(8)`, `free(16, 24)`
the live allocations are `[0, 16)` and `[40, 48)` and `used = 24`; the valid
call `free(0, 16)` reads the erased iterator, so the run has no state in which
`used` is the `8` bytes still live. -/
theorem run_used_after_coalescing_faults :
    run [.alloc 16, .alloc 24, .alloc 8, .free 16 24] =
        .ok { st := { used := 24, peak := 48, ptr := none, alignment := 8,
                      freeBlocks := [(16, 24)] },
              live := [(40, 8), (0, 16)], offsets := [40, 16, 0] } ∧
      run [.alloc 16, .alloc 24, .alloc 8, .free 16 24, .free 0 16] =
        .error (.fault .erasedIterator) :=
  ⟨rfl, rfl⟩

/-! ## Binding -/

theorem alloc_ptr (a a' : Allocator) (size off : Nat) (h : alloc a size = .ok (off, a')) :
    a'.ptr = a.ptr := by
  unfold alloc at h
  split_ifs at h with hp
  have hbest : (allocBestFit a (getAlignedSize a size)).2.ptr = a.ptr := by
    unfold allocBestFit
    split
    · split <;> rfl
    · rfl
  split at h
  · rename_i addr blockSize _
    split_ifs at h with h0
    · simp only [Except.ok.injEq] at h
      have ha' : a' = (allocTail a (getAlignedSize a size) addr blockSize).2 := by rw [h]
      rw [ha']
      unfold allocTail
      split_ifs <;> rfl
    · simp only [Except.ok.injEq] at h
      have ha' : a' = (allocBestFit a (getAlignedSize a size)).2 := by rw [h]
      rw [ha']
      exact hbest
  · simp only [Except.ok.injEq] at h
    have ha' : a' = (allocBestFit a (getAlignedSize a size)).2 := by rw [h]
    rw [ha']
    exact hbest

theorem freeInsert_ptr (a : Allocator) (used addr size it : Nat) :
    (freeInsert a used addr size it).ptr = a.ptr := by
  unfold freeInsert
  split_ifs
  · split
    · split_ifs <;> rfl
    · rfl
  · rfl

theorem free_ptr (a a' : Allocator) (addr size : Nat) (h : free a addr size = .ok a') :
    a'.ptr = a.ptr := by
  unfold free at h
  split_ifs at h with hp
  simp only at h
  split at h
  · simp only [Except.ok.injEq] at h
    rw [← h, freeInsert_ptr]
  · cases h

theorem alloc_assertion_iff (a : Allocator) (size : Nat) :
    alloc a size = .error .assertion ↔ a.ptr ≠ none := by
  constructor
  · intro h
    intro hp
    have hp' : ¬ (a.ptr ≠ none) := by simp [hp]
    unfold alloc at h
    rw [if_neg hp'] at h
    simp only at h
    split at h
    · split_ifs at h
    · cases h
  · intro hp
    simp only [alloc, if_pos hp]

theorem free_assertion_iff (a : Allocator) (addr size : Nat) :
    free a addr size = .error .assertion ↔ a.ptr ≠ none := by
  constructor
  · intro h
    intro hp
    have hp' : ¬ (a.ptr ≠ none) := by simp [hp]
    unfold free at h
    rw [if_neg hp'] at h
    simp only at h
    split at h
    · cases h
    · cases h
  · intro hp
    simp only [free, if_pos hp]

theorem alloc_returns (a : Allocator) (size : Nat) (hptr : a.ptr = none) :
    ∃ off a', alloc a size = .ok (off, a') := by
  have hp : ¬ (a.ptr ≠ none) := by simp [hptr]
  simp only [alloc, if_neg hp]
  split
  · split_ifs
    · exact ⟨_, _, rfl⟩
    · exact ⟨_, _, rfl⟩
  · exact ⟨_, _, rfl⟩

theorem call_ptr (provide : Nat → Option Nat) (hprov : ∀ n, provide n ≠ none)
    (a a' : Allocator) (c : Call) (h : call provide a c = .ok a') :
    a'.ptr ≠ none ↔ a.ptr ≠ none ∨ c = .getPtr := by
  cases c with
  | alloc size =>
    simp only [call] at h
    split at h
    · rename_i off a1 halloc
      simp only [Except.ok.injEq] at h
      subst h
      rw [alloc_ptr a a1 size off halloc]
      simp
    · cases h
  | free addr size =>
    simp only [call] at h
    rw [free_ptr a a' addr size h]
    simp
  | getPtr =>
    simp only [call, Except.ok.injEq] at h
    subst h
    unfold getPtr
    split_ifs with hp
    · simpa using hprov a.peak
    · simpa using hp

theorem calls_ptr (provide : Nat → Option Nat) (hprov : ∀ n, provide n ≠ none)
    (cs : List Call) :
    ∀ (a a' : Allocator), calls provide a cs = .ok a' →
      (a'.ptr ≠ none ↔ a.ptr ≠ none ∨ Call.getPtr ∈ cs) := by
  induction cs with
  | nil =>
    intro a a' h
    simp only [calls, Except.ok.injEq] at h
    subst h
    simp
  | cons c cs ih =>
    intro a a' h
    simp only [calls] at h
    split at h
    · rename_i a1 hc
      rw [ih a1 a' h, call_ptr provide hprov a a1 c hc, List.mem_cons]
      constructor
      · rintro ((h1 | h1) | h1)
        · exact Or.inl h1
        · exact Or.inr (Or.inl h1.symm)
        · exact Or.inr (Or.inr h1)
      · rintro (h1 | h1 | h1)
        · exact Or.inl (Or.inl h1)
        · exact Or.inl (Or.inr h1.symm)
        · exact Or.inr h1
    · cases h

/-- C12 (frozen layout after binding). Let the runtime hand out a non-null
buffer for every request. After any calls of `alloc`, `free` and `getPtr` on a
freshly constructed allocator that all returned, `alloc` fails its assertion
(and so returns no new state) exactly when one of these calls was `getPtr`, and
so does `free`; as long as no `getPtr` call was made, `alloc` returns an offset
for every size. -/
theorem alloc_free_fail_iff_bound (provide : Nat → Option Nat)
    (hprov : ∀ n, provide n ≠ none) (cs : List Call) (a : Allocator)
    (h : calls provide Allocator.new cs = .ok a) :
    (∀ size, alloc a size = .error .assertion ↔ Call.getPtr ∈ cs) ∧
      (∀ addr size, free a addr size = .error .assertion ↔ Call.getPtr ∈ cs) ∧
      (Call.getPtr ∉ cs → ∀ size, ∃ off a', alloc a size = .ok (off, a')) := by
  have hb : a.ptr ≠ none ↔ Call.getPtr ∈ cs := by
    rw [calls_ptr provide hprov cs _ _ h]
    simp [Allocator.new]
  refine ⟨fun size => ?_, fun addr size => ?_, fun hno size => ?_⟩
  · rw [alloc_assertion_iff, hb]
  · rw [free_assertion_iff, hb]
  · apply alloc_returns
    by_contra hp
    exact hno (hb.1 hp)

theorem alloc_free_fail_iff_bound_witness :
    (∀ n, (fun _ : Nat => some 4096) n ≠ none) ∧
      calls (fun _ => some 4096) Allocator.new [.alloc 10, .alloc 20, .getPtr] =
        .ok { used := 40, peak := 40, ptr := some 4096, alignment := 8, freeBlocks := [] } ∧
      (∀ size, alloc { used := 40, peak := 40, ptr := some 4096, alignment := 8,
                       freeBlocks := [] } size = .error .assertion ↔
        Call.getPtr ∈ [Call.alloc 10, Call.alloc 20, Call.getPtr]) :=
  ⟨fun _ => by simp, rfl,
    (alloc_free_fail_iff_bound (fun _ => some 4096) (fun _ => by simp)
      [.alloc 10, .alloc 20, .getPtr] _ rfl).1⟩

/-- C13 (idempotent binding). On an unbound allocator, when the runtime hands
out the buffer `h` for a request of `peak` bytes, `getPtr` requests exactly
`peak` bytes, stores and returns `h`, and changes nothing else (`used`, `peak`
and `freeBlocks` are as before). On the allocator so bound, `getPtr` returns
`h` again, requests nothing, whatever the runtime would hand out, and leaves
the allocator as it is, so that every later call does the same. -/
theorem getPtr_idempotent (provide : Nat → Option Nat) (a : Allocator) (h : Nat)
    (hptr : a.ptr = none) (hprov : provide a.peak = some h) :
    getPtr provide a = (some h, { a with ptr := some h }, [a.peak]) ∧
      (∀ provide' : Nat → Option Nat,
        getPtr provide' { a with ptr := some h } = (some h, { a with ptr := some h }, [])) ∧
      (getPtr provide a).2.1.used = a.used ∧ (getPtr provide a).2.1.peak = a.peak ∧
      (getPtr provide a).2.1.freeBlocks = a.freeBlocks := by
  have h1 : getPtr provide a = (some h, { a with ptr := some h }, [a.peak]) := by
    simp only [getPtr, if_pos hptr, hprov]
  refine ⟨h1, fun provide' => ?_, ?_, ?_, ?_⟩
  · simp [getPtr]
  · rw [h1]
  · rw [h1]
  · rw [h1]

theorem getPtr_idempotent_witness :
    tailState.ptr = none ∧ (fun _ : Nat => some 4096) tailState.peak = some 4096 ∧
      getPtr (fun _ => some 4096) tailState =
        (some 4096, { tailState with ptr := some 4096 }, [40]) ∧
      getPtr (fun _ => some 8192) { tailState with ptr := some 4096 } =
        (some 4096, { tailState with ptr := some 4096 }, []) :=
  ⟨rfl, rfl, (getPtr_idempotent (fun _ => some 4096) tailState 4096 rfl rfl).1,
    (getPtr_idempotent (fun _ => some 4096) tailState 4096 rfl rfl).2.1 (fun _ => some 8192)⟩

/-! ## Overflow -/

/-- C16 (scenario with alignment 8). On a freshly constructed allocator
`alloc(10)` returns 0 and leaves `peak = 16`; `alloc(20)` returns 16 and leaves
`peak = 40`; `free(0, 10)` leaves the free block `{0 : 16}`; `alloc(8)` returns
0 and leaves `{8 : 8}` with `peak = 40`; `free(16, 20)` leaves `{8 : 32}` with
`used = 8` and `peak = 40`. -/
theorem scenario_trace :
    run [.alloc 10] =
        .ok { st := { used := 16, peak := 16, ptr := none, alignment := 8, freeBlocks := [] },
              live := [(0, 16)], offsets := [0] } ∧
      run [.alloc 10, .alloc 20] =
        .ok { st := { used := 40, peak := 40, ptr := none, alignment := 8, freeBlocks := [] },
              live := [(16, 24), (0, 16)], offsets := [16, 0] } ∧
      run [.alloc 10, .alloc 20, .free 0 10] =
        .ok { st := { used := 24, peak := 40, ptr := none, alignment := 8,
                      freeBlocks := [(0, 16)] },
              live := [(16, 24)], offsets := [16, 0] } ∧
      run [.alloc 10, .alloc 20, .free 0 10, .alloc 8] =
        .ok { st := { used := 32, peak := 40, ptr := none, alignment := 8,
                      freeBlocks := [(8, 8)] },
              live := [(0, 8), (16, 24)], offsets := [0, 16, 0] } ∧
      run [.alloc 10, .alloc 20, .free 0 10, .alloc 8, .free 16 20] =
        .ok { st := { used := 8, peak := 40, ptr := none, alignment := 8,
                      freeBlocks := [(8, 32)] },
              live := [(0, 8)], offsets := [0, 16, 0] } :=
  ⟨rfl, rfl, rfl, rfl, rfl⟩

/-- C15, failing run. In `alloc(10)`, `alloc(20)`, `free(0, 10)`, `alloc(8)`,
`free(16, 20)`, `free(0, 8)` the last call frees `[0, 8)` in front of the free
block `{8 : 32}`: it erases that block and reads the erased iterator, so the
run does not end with `freeBlocks = {0 : 40}`. -/
theorem run_free_all_faults :
    run [.alloc 10, .alloc 20, .free 0 10, .alloc 8, .free 16 20, .free 0 8] =
      .error (.fault .erasedIterator) :=
  rfl

/-- C14, failing call. With the free block `{8 : 16}` and the live allocation
`[0, 8)`, `free(0, 8)` erases the block and reads the erased iterator: the call
yields no state, so no resulting `peak`. -/
theorem free_peak_faults :
    free { used := 8, peak := 24, ptr := none, alignment := 8, freeBlocks := [(8, 16)] } 0 8 =
      .error .erasedIterator :=
  rfl

/-- C17, failing call. With the free blocks `{0 : 8}` and `{16 : 8}` and the
live allocation `[8, 16)`, the prescribed merge of `free(8, 8)` is the single
block `{0 : 24}`; `free` erases `{16 : 8}` and reads the erased iterator. -/
theorem free_differs_from_mergeSpec :
    mergeSpec [(0, 8), (16, 8)] 8 8 = [(0, 24)] ∧
      free { used := 8, peak := 24, ptr := none, alignment := 8,
             freeBlocks := [(0, 8), (16, 8)] } 8 8 = .error .erasedIterator :=
  ⟨by decide, rfl⟩

/-- A second way in which `free` departs from the prescribed merge: with the
zero-length entry `{0 : 0}` at the freed address, `lower_bound` returns that
entry, the following block `{8 : 8}` is not looked at, and `free(0, 8)` returns
`{0 : 8}`, `{8 : 8}` where the prescribed merge is `{0 : 16}`. -/
theorem free_differs_from_mergeSpec_at_empty_block :
    mergeSpec [(0, 0), (8, 8)] 0 8 = [(0, 16)] ∧
      free { used := 8, peak := 16, ptr := none, alignment := 8,
             freeBlocks := [(0, 0), (8, 8)] } 0 8 =
        .ok { used := 0, peak := 16, ptr := none, alignment := 8,
              freeBlocks := [(0, 8), (8, 8)] } :=
  ⟨by decide, rfl⟩

/-- C18, failing call. In `free(0, 8)` with the single free block `{8 : 8}`,
lines 97-101 erase the entry under `it` and leave `it` invalid (`none`), with
the merged size 16 and the empty map; line 104 then reads `it`. -/
theorem free_reads_erased_iterator :
    freeMergeNext { used := 8, peak := 16, ptr := none, alignment := 8,
                    freeBlocks := [(8, 8)] } 0 8 0 = (16, [], none) ∧
      free { used := 8, peak := 16, ptr := none, alignment := 8,
             freeBlocks := [(8, 8)] } 0 8 = .error .erasedIterator :=
  ⟨rfl, rfl⟩

/-- C19, failing round trip. On `tailState` (`peak = 40`, free block
`{16 : 24}`), `alloc(8)` returns 16 without changing `peak` and leaves the
remainder `{24 : 16}`; the `free(16, 8)` that follows erases that remainder and
reads the erased iterator instead of restoring `{16 : 24}`. -/
theorem alloc_free_round_trip_faults :
    alloc tailState 8 = .ok (16, { tailState with used := 24, freeBlocks := [(24, 16)] }) ∧
      free { tailState with used := 24, freeBlocks := [(24, 16)] } 16 8 =
        .error .erasedIterator :=
  ⟨rfl, rfl⟩

/-- C20, failing run. On a freshly constructed allocator `alloc(0)` returns 0
and `free(0, 0)` then stores the zero-length entry `{0 : 0}`. -/
theorem run_zero_size_leaves_empty_block :
    run [.alloc 0] =
        .ok { st := Allocator.new, live := [(0, 0)], offsets := [0] } ∧
      run [.alloc 0, .free 0 0] =
        .ok { st := { Allocator.new with freeBlocks := [(0, 0)] }, live := [], offsets := [0] } :=
  ⟨rfl, rfl⟩

/-- A zero-length entry at the freed address hides the following block from
`lower_bound`: after `alloc(0)`, `alloc(8)`, `alloc(8)`, `free(8, 8)`,
`free(0, 0)` the map is `{0 : 0, 8 : 8}`, and `free(0, 8)` returns with the
adjacent blocks `{0 : 8}` and `{8 : 8}` left unmerged. -/
theorem run_empty_block_hides_next :
    run [.alloc 0, .alloc 8, .alloc 8, .free 8 8, .free 0 0] =
        .ok { st := { used := 8, peak := 16, ptr := none, alignment := 8,
                      freeBlocks := [(0, 0), (8, 8)] },
              live := [(0, 8)], offsets := [8, 0, 0] } ∧
      run [.alloc 0, .alloc 8, .alloc 8, .free 8 8, .free 0 0, .free 0 8] =
        .ok { st := { used := 0, peak := 16, ptr := none, alignment := 8,
                      freeBlocks := [(0, 8), (8, 8)] },
              live := [], offsets := [8, 0, 0] } :=
  ⟨rfl, rfl⟩

/-! ## Free blocks are not empty when no request is -/

theorem getAlignedSize_congr (a b : Allocator) (size : Nat) (h : a.alignment = b.alignment) :
    getAlignedSize a size = getAlignedSize b size := by
  simp only [getAlignedSize, h]

theorem allocTail_positive (a : Allocator) (s addr blockSize : Nat)
    (hfb : ∀ b ∈ a.freeBlocks, 0 < b.2 ∧ b.1 + b.2 ≤ a.peak)
    (hmem : (addr, blockSize) ∈ a.freeBlocks)
    (htail : (addr + blockSize) % SIZE_RANGE = a.peak)
    (hs : 0 < s) (hno : a.peak + s < SIZE_RANGE) :
    (allocTail a s addr blockSize).2.alignment = a.alignment ∧
      (allocTail a s addr blockSize).2.ptr = a.ptr ∧
      a.peak ≤ (allocTail a s addr blockSize).2.peak ∧
      (allocTail a s addr blockSize).2.peak ≤ a.peak + s ∧
      (∀ b ∈ (allocTail a s addr blockSize).2.freeBlocks,
        0 < b.2 ∧ b.1 + b.2 ≤ (allocTail a s addr blockSize).2.peak) ∧
      (allocTail a s addr blockSize).1 + s ≤ (allocTail a s addr blockSize).2.peak := by
  obtain ⟨_, hend⟩ := hfb _ hmem
  simp only at hend
  have hpeak : addr + blockSize = a.peak := by
    rw [Nat.mod_eq_of_lt (by omega)] at htail
    exact htail
  have hdrop : ∀ b ∈ a.freeBlocks.dropLast, 0 < b.2 ∧ b.1 + b.2 ≤ a.peak :=
    fun b hb => hfb b (List.mem_of_mem_dropLast hb)
  have hkey : (addr + s) % SIZE_RANGE = addr + s := Nat.mod_eq_of_lt (by omega)
  unfold allocTail
  split_ifs with h1 h2
  · refine ⟨rfl, rfl, le_refl _, by simp only; omega, ?_, by simp only; omega⟩
    intro b hb
    rcases mem_assign _ _ _ _ hb with hb | rfl
    · exact hdrop b hb
    · simp only [hkey]
      omega
  · exact ⟨rfl, rfl, le_refl _, by simp only; omega, hdrop, by simp only; omega⟩
  · refine ⟨rfl, rfl, by simp only [hkey]; omega, by simp only [hkey]; omega, ?_,
      by simp only [hkey]; omega⟩
    intro b hb
    have := hdrop b hb
    simp only [hkey]
    omega

theorem allocBestFit_positive (a : Allocator) (s : Nat)
    (hfb : ∀ b ∈ a.freeBlocks, 0 < b.2 ∧ b.1 + b.2 ≤ a.peak)
    (hs : 0 < s) (hno : a.peak + s < SIZE_RANGE) :
    (allocBestFit a s).2.alignment = a.alignment ∧
      (allocBestFit a s).2.ptr = a.ptr ∧
      a.peak ≤ (allocBestFit a s).2.peak ∧
      (allocBestFit a s).2.peak ≤ a.peak + s ∧
      (∀ b ∈ (allocBestFit a s).2.freeBlocks,
        0 < b.2 ∧ b.1 + b.2 ≤ (allocBestFit a s).2.peak) ∧
      (allocBestFit a s).1 + s ≤ (allocBestFit a s).2.peak := by
  have hbump : (a.peak + s) % SIZE_RANGE = a.peak + s := Nat.mod_eq_of_lt hno
  rcases bestFitScan_spec s a.freeBlocks 0 none (SIZE_RANGE - 1) with
    ⟨_, heq⟩ | ⟨j, addr, len, hget, hle, _, heq, _, _⟩
  · simp only [allocBestFit, heq, hbump]
    refine ⟨trivial, trivial, by omega, le_refl _, ?_, le_refl _⟩
    intro b hb
    have := hfb b hb
    omega
  · obtain ⟨_, hend⟩ := hfb _ (List.mem_iff_getElem?.2 ⟨j, hget⟩)
    simp only at hend
    have hkey : (addr + s) % SIZE_RANGE = addr + s := Nat.mod_eq_of_lt (by omega)
    have herase : ∀ b ∈ a.freeBlocks.eraseIdx j, 0 < b.2 ∧ b.1 + b.2 ≤ a.peak :=
      fun b hb => hfb b (List.mem_of_mem_eraseIdx hb)
    simp only [allocBestFit, heq, Nat.zero_add, hget, hkey]
    refine ⟨trivial, trivial, le_refl _, by omega, ?_, by omega⟩
    split_ifs with h1
    · intro b hb
      rcases mem_assign _ _ _ _ hb with hb | rfl
      · exact herase b hb
      · simp only
        omega
    · exact herase

theorem freeInsert_positive (a : Allocator) (used addr s it : Nat)
    (hfb : ∀ b ∈ a.freeBlocks, 0 < b.2 ∧ b.1 + b.2 ≤ a.peak)
    (hs : 0 < s) (hend : addr + s ≤ a.peak) (hpeak : a.peak < SIZE_RANGE) :
    (freeInsert a used addr s it).alignment = a.alignment ∧
      (freeInsert a used addr s it).peak = a.peak ∧
      ∀ b ∈ (freeInsert a used addr s it).freeBlocks, 0 < b.2 ∧ b.1 + b.2 ≤ a.peak := by
  have hassign : ∀ b ∈ assign a.freeBlocks addr s, 0 < b.2 ∧ b.1 + b.2 ≤ a.peak := by
    intro b hb
    rcases mem_assign _ _ _ _ hb with hb | rfl
    · exact hfb b hb
    · exact ⟨hs, hend⟩
  unfold freeInsert
  split_ifs with h0
  · split
    · rename_i prevStart prevLen hget
      obtain ⟨_, hprev⟩ := hfb _ (List.mem_iff_getElem?.2 ⟨_, hget⟩)
      simp only at hprev
      split_ifs with h1
      · refine ⟨rfl, rfl, ?_⟩
        intro b hb
        rcases List.mem_or_eq_of_mem_set hb with hb | rfl
        · exact hfb b hb
        · rw [Nat.mod_eq_of_lt (by omega)] at h1
          have hlen : (prevLen + s) % SIZE_RANGE = prevLen + s :=
            Nat.mod_eq_of_lt (by omega)
          simp only [hlen]
          omega
      · exact ⟨rfl, rfl, hassign⟩
    · exact ⟨rfl, rfl, hassign⟩
  · exact ⟨rfl, rfl, hassign⟩

theorem step_positive (r r' : Run) (op : Op) (hr : r.Positive)
    (hsize : ∀ size, op = .alloc size → 0 < getAlignedSize Allocator.new size)
    (hno : r.st.peak + requested [op] < SIZE_RANGE)
    (h : step r op = .ok r') :
    r'.Positive ∧ r'.st.peak ≤ r.st.peak + requested [op] := by
  obtain ⟨halign, hptr, hfb, hlive⟩ := hr
  have hp : ¬ (r.st.ptr ≠ none) := by simp [hptr]
  cases op with
  | alloc size =>
    have hcongr : getAlignedSize r.st size = getAlignedSize Allocator.new size :=
      getAlignedSize_congr _ _ _ halign
    have hs : 0 < getAlignedSize r.st size := by
      rw [hcongr]; exact hsize size rfl
    simp only [requested, Nat.add_zero, ← hcongr] at hno ⊢
    have key : ∀ res : Nat × Allocator, alloc r.st size = .ok res →
        res.2.alignment = r.st.alignment ∧ res.2.ptr = r.st.ptr ∧
        r.st.peak ≤ res.2.peak ∧ res.2.peak ≤ r.st.peak + getAlignedSize r.st size ∧
        (∀ b ∈ res.2.freeBlocks, 0 < b.2 ∧ b.1 + b.2 ≤ res.2.peak) ∧
        res.1 + getAlignedSize r.st size ≤ res.2.peak := by
      intro res hres
      simp only [alloc, if_neg hp] at hres
      split at hres
      · rename_i addr blockSize hlast
        split_ifs at hres with h0
        · simp only [Except.ok.injEq] at hres
          rw [← hres]
          exact allocTail_positive r.st _ addr blockSize hfb
            (List.mem_of_getLast?_eq_some hlast) h0 hs hno
        · simp only [Except.ok.injEq] at hres
          rw [← hres]
          exact allocBestFit_positive r.st _ hfb hs hno
      · simp only [Except.ok.injEq] at hres
        rw [← hres]
        exact allocBestFit_positive r.st _ hfb hs hno
    simp only [step] at h
    split at h
    · rename_i off st' halloc
      obtain ⟨h1, h2, h3, h4, h5, h6⟩ := key _ halloc
      simp only at h1 h2 h3 h4 h5 h6
      simp only [Except.ok.injEq] at h
      subst h
      refine ⟨⟨by rw [h1, halign], by rw [h2, hptr], h5, ?_⟩, h4⟩
      intro x hx
      rcases List.mem_cons.1 hx with rfl | hx
      · exact ⟨hs, h6⟩
      · have := hlive x hx
        simp only
        omega
    · cases h
  | free addr size =>
    simp only [requested, Nat.add_zero] at hno ⊢
    simp only [step] at h
    split_ifs at h with hmem
    obtain ⟨hs, hend⟩ := hlive _ hmem
    simp only at hs hend
    split at h
    · rename_i st' hfree
      simp only [Except.ok.injEq] at h
      subst h
      simp only [free, if_neg hp] at hfree
      rcases freeMergeNext_cases r.st addr (getAlignedSize r.st size)
          (lower_bound r.st.freeBlocks addr) with ⟨nextLen, _, hm⟩ | hm
      · simp only [hm] at hfree
        cases hfree
      · simp only [hm, Except.ok.injEq] at hfree
        obtain ⟨h1, h2, h3⟩ := freeInsert_positive r.st
          ((r.st.used + SIZE_RANGE - getAlignedSize r.st size) % SIZE_RANGE) addr
          (getAlignedSize r.st size) (lower_bound r.st.freeBlocks addr) hfb hs hend hno
        have h4 := freeInsert_ptr r.st
          ((r.st.used + SIZE_RANGE - getAlignedSize r.st size) % SIZE_RANGE) addr
          (getAlignedSize r.st size) (lower_bound r.st.freeBlocks addr)
        rw [hfree] at h1 h2 h3 h4
        refine ⟨⟨by rw [h1, halign], by rw [h4, hptr], ?_, ?_⟩, by simp only; omega⟩
        · intro b hb
          have := h3 b hb
          simp only
          omega
        · intro x hx
          have := hlive x (List.mem_of_mem_erase hx)
          simp only
          omega
    · cases h

theorem requested_cons (op : Op) (ops : List Op) :
    requested (op :: ops) = requested [op] + requested ops := by
  cases op <;> simp [requested]

theorem runFrom_positive (ops : List Op) :
    ∀ (r r' : Run), r.Positive →
      (∀ size, Op.alloc size ∈ ops → 0 < getAlignedSize Allocator.new size) →
      r.st.peak + requested ops < SIZE_RANGE →
      runFrom r ops = .ok r' → r'.Positive := by
  induction ops with
  | nil =>
    intro r r' hr _ _ h
    simp only [runFrom, Except.ok.injEq] at h
    subst h
    exact hr
  | cons op ops ih =>
    intro r r' hr hsizes hno h
    rw [requested_cons] at hno
    simp only [runFrom] at h
    split at h
    · rename_i r1 hstep
      obtain ⟨hr1, hpk⟩ := step_positive r r1 op hr
        (fun size hop => hsizes size (by rw [hop]; exact List.mem_cons_self _ _))
        (by omega) hstep
      exact ih r1 r' hr1 (fun size hm => hsizes size (List.mem_cons_of_mem _ hm))
        (by omega) h
    · cases h

/-- In every state reached from a freshly constructed allocator
by `alloc` calls and by `free` calls that each match a live allocation, when
every requested size has a positive aligned size and the aligned sizes
requested add up to less than `2 ^ 64`, every entry of `freeBlocks` has a
positive length. -/
theorem free_blocks_nonempty (ops : List Op) (r : Run) (h : run ops = .ok r)
    (hsizes : ∀ size, Op.alloc size ∈ ops → 0 < getAlignedSize Allocator.new size)
    (hsum : requested ops < SIZE_RANGE) :
    ∀ b ∈ r.st.freeBlocks, 0 < b.2 := by
  have hnew : Run.Positive { st := Allocator.new, live := [], offsets := [] } := by
    refine ⟨rfl, rfl, ?_, ?_⟩ <;> intro b hb <;> simp [Allocator.new] at hb
  have hr := runFrom_positive ops _ r hnew hsizes (by simpa [Allocator.new] using hsum) h
  exact fun b hb => (hr.2.2.1 b hb).1

theorem free_blocks_nonempty_witness :
    run [.alloc 10, .alloc 20, .free 0 10, .alloc 8, .free 16 20] =
        .ok { st := { used := 8, peak := 40, ptr := none, alignment := 8,
                      freeBlocks := [(8, 32)] },
              live := [(0, 8)], offsets := [0, 16, 0] } ∧
      requested [.alloc 10, .alloc 20, .free 0 10, .alloc 8, .free 16 20] < SIZE_RANGE ∧
      ∀ b ∈ [((8 : Nat), (32 : Nat))], 0 < b.2 :=
  ⟨rfl, by decide,
    free_blocks_nonempty [.alloc 10, .alloc 20, .free 0 10, .alloc 8, .free 16 20]
      { st := { used := 8, peak := 40, ptr := none, alignment := 8, freeBlocks := [(8, 32)] },
        live := [(0, 8)], offsets := [0, 16, 0] } rfl
      (fun size hm => by
        simp only [List.mem_cons, Op.alloc.injEq, List.mem_singleton, reduceCtorEq,
          or_false, false_or, List.not_mem_nil] at hm
        rcases hm with rfl | rfl | rfl <;> decide)
      (by decide)⟩

/-! ## The high-water mark -/

/-- Whenever `free` returns, `peak` is what it was. -/
theorem free_peak (a a' : Allocator) (addr size : Nat) (h : free a addr size = .ok a') :
    a'.peak = a.peak := by
  have hins : ∀ (b : Allocator) used s it, (freeInsert b used addr s it).peak = b.peak := by
    intro b used s it
    unfold freeInsert
    split_ifs
    · split
      · split_ifs <;> rfl
      · rfl
    · rfl
  unfold free at h
  split_ifs at h with hp
  simp only at h
  split at h
  · simp only [Except.ok.injEq] at h
    rw [← h, hins]
  · cases h

theorem allocBestFit_peak (a : Allocator) (s : Nat) (hno : a.peak + s < SIZE_RANGE) :
    a.peak ≤ (allocBestFit a s).2.peak ∧
      ((allocBestFit a s).2.peak ≠ a.peak →
        (allocBestFit a s).2.peak = (allocBestFit a s).1 + s ∧
          (allocBestFit a s).1 = a.peak) := by
  have hbump : (a.peak + s) % SIZE_RANGE = a.peak + s := Nat.mod_eq_of_lt hno
  have hle : a.peak ≤ (a.peak + s) % SIZE_RANGE := by rw [hbump]; omega
  unfold allocBestFit
  split
  · split
    · exact ⟨le_refl _, fun hne => absurd rfl hne⟩
    · exact ⟨hle, fun _ => ⟨hbump, rfl⟩⟩
  · exact ⟨hle, fun _ => ⟨hbump, rfl⟩⟩

theorem allocTail_peak (a : Allocator) (s addr blockSize : Nat)
    (htail : addr + blockSize = a.peak) (hno : a.peak + s < SIZE_RANGE) :
    (allocTail a s addr blockSize).1 = addr ∧
      a.peak ≤ (allocTail a s addr blockSize).2.peak ∧
      ((allocTail a s addr blockSize).2.peak ≠ a.peak →
        (allocTail a s addr blockSize).2.peak = addr + s ∧ blockSize < s) := by
  have hkey : (addr + s) % SIZE_RANGE = addr + s := Nat.mod_eq_of_lt (by omega)
  unfold allocTail
  split_ifs with h1 h2
  · exact ⟨rfl, le_refl _, fun hne => absurd rfl hne⟩
  · exact ⟨rfl, le_refl _, fun hne => absurd rfl hne⟩
  · refine ⟨rfl, ?_, fun _ => ⟨hkey, by omega⟩⟩
    show a.peak ≤ (addr + s) % SIZE_RANGE
    rw [hkey]
    omega

/-- Without overflow `alloc` never lowers `peak`, and it changes `peak` only
to `offset + s`, either in the bump branch (`offset` is the old `peak`) or in
the tail-extension branch (the last free block `(offset, len)` ends at the old
`peak` and `len < s`). -/
theorem alloc_peak_monotone (a : Allocator) (size : Nat)
    (hptr : a.ptr = none)
    (hin : ∀ b ∈ a.freeBlocks, b.1 + b.2 ≤ a.peak)
    (hno : a.peak + getAlignedSize a size < SIZE_RANGE) :
    ∃ off a', alloc a size = .ok (off, a') ∧ a.peak ≤ a'.peak ∧
      (a'.peak ≠ a.peak →
        a'.peak = off + getAlignedSize a size ∧
        (off = a.peak ∨
          ∃ len, a.freeBlocks.getLast? = some (off, len) ∧ off + len = a.peak ∧
            len < getAlignedSize a size)) := by
  have hp : ¬ (a.ptr ≠ none) := by simp [hptr]
  obtain ⟨hb1, hb2⟩ := allocBestFit_peak a (getAlignedSize a size) hno
  have hbest : ∃ off a', Except.ok (ε := Fault) (allocBestFit a (getAlignedSize a size))
        = .ok (off, a') ∧ a.peak ≤ a'.peak ∧
      (a'.peak ≠ a.peak →
        a'.peak = off + getAlignedSize a size ∧
        (off = a.peak ∨
          ∃ len, a.freeBlocks.getLast? = some (off, len) ∧ off + len = a.peak ∧
            len < getAlignedSize a size)) :=
    ⟨(allocBestFit a (getAlignedSize a size)).1, (allocBestFit a (getAlignedSize a size)).2,
      rfl, hb1, fun hne => ⟨(hb2 hne).1, Or.inl (hb2 hne).2⟩⟩
  cases hlast : a.freeBlocks.getLast? with
  | none =>
    simp only [alloc, if_neg hp, hlast]
    simpa only [hlast] using hbest
  | some b =>
    obtain ⟨addr, blockSize⟩ := b
    have hend := hin _ (List.mem_of_getLast?_eq_some hlast)
    simp only at hend
    simp only [alloc, if_neg hp, hlast]
    split_ifs with h0
    · rw [Nat.mod_eq_of_lt (by omega)] at h0
      obtain ⟨ht1, ht2, ht3⟩ := allocTail_peak a (getAlignedSize a size) addr blockSize h0 hno
      refine ⟨(allocTail a (getAlignedSize a size) addr blockSize).1,
        (allocTail a (getAlignedSize a size) addr blockSize).2, rfl, ht2, fun hne => ?_⟩
      rw [ht1]
      exact ⟨(ht3 hne).1, Or.inr ⟨blockSize, rfl, h0, (ht3 hne).2⟩⟩
    · simpa only [hlast] using hbest

theorem alloc_peak_monotone_tailState :
    ∃ off a', alloc tailState 30 = .ok (off, a') ∧ tailState.peak ≤ a'.peak ∧
      (a'.peak ≠ tailState.peak →
        a'.peak = off + getAlignedSize tailState 30 ∧
        (off = tailState.peak ∨
          ∃ len, tailState.freeBlocks.getLast? = some (off, len) ∧ off + len = tailState.peak ∧
            len < getAlignedSize tailState 30)) :=
  alloc_peak_monotone tailState 30 rfl (by decide) (by decide)

/-- With a valid run of positive requests that wraps `peak`, the block before
the freed range grows to a length of `2 ^ 64`, stored as 0. -/
theorem run_wrapped_merge_leaves_empty_block :
    run [.alloc 9223372036854775808, .alloc 9223372036854775808,
         .free 0 9223372036854775808, .free 9223372036854775808 9223372036854775808] =
      .ok { st := { used := 0, peak := 0, ptr := none, alignment := 8,
                    freeBlocks := [(0, 0)] },
            live := [], offsets := [9223372036854775808, 0] } :=
  rfl

end infini
